import Mathlib

/-!
# Verification of the Shipd map-reduce driver/engine core

A shallow embedding of `engine.py` (`MapReduceEngine`) and `driver.py`
(`MapReduceDriver`).  Python floats are modelled as extended rationals:
finite values are `ℚ`, and `float('inf')` / `float('-inf')` are the top and
bottom elements of `WithBot (WithTop ℚ)`.  Python dicts are modelled as
insertion-ordered association lists.  Python's built-in `round` (which
rounds half to even on floats) is modelled by `pyRound`, and `int()`
truncation toward zero by `qTrunc`.
-/

set_option maxHeartbeats 1000000

namespace Shipd

/-- Extended rationals modelling Python floats including the infinities. -/
abbrev EFloat := WithBot (WithTop ℚ)

/-- Embedding of a finite float value into `EFloat`. -/
def qf (q : ℚ) : EFloat := ((q : WithTop ℚ) : WithBot (WithTop ℚ))

/-- `float('inf')`. -/
def pInf : EFloat := ((⊤ : WithTop ℚ) : WithBot (WithTop ℚ))

/-- `float('-inf')`. -/
def nInf : EFloat := (⊥ : WithBot (WithTop ℚ))

@[simp] theorem qf_le_qf {a b : ℚ} : qf a ≤ qf b ↔ a ≤ b := by
  simp [qf]

@[simp] theorem nInf_le (x : EFloat) : nInf ≤ x := bot_le

theorem pInf_eq_top : pInf = (⊤ : EFloat) := rfl

@[simp] theorem le_pInf (x : EFloat) : x ≤ pInf := le_top

@[simp] theorem qf_inj {a b : ℚ} : qf a = qf b ↔ a = b := by
  simp [qf]

@[simp] theorem qf_lt_qf {a b : ℚ} : qf a < qf b ↔ a < b := by
  simp [qf]

@[simp] theorem min_pInf_left (x : EFloat) : min pInf x = x :=
  min_eq_right (le_pInf x)

@[simp] theorem max_nInf_left (x : EFloat) : max nInf x = x :=
  max_eq_right (nInf_le x)

@[simp] theorem qf_min (a b : ℚ) : min (qf a) (qf b) = qf (min a b) := by
  rcases le_total a b with h | h
  · rw [min_eq_left h, min_eq_left (qf_le_qf.2 h)]
  · rw [min_eq_right h, min_eq_right (qf_le_qf.2 h)]

@[simp] theorem qf_max (a b : ℚ) : max (qf a) (qf b) = qf (max a b) := by
  rcases le_total a b with h | h
  · rw [max_eq_right h, max_eq_right (qf_le_qf.2 h)]
  · rw [max_eq_left h, max_eq_left (qf_le_qf.2 h)]

theorem qf_ne_pInf (a : ℚ) : qf a ≠ pInf := by
  simp [qf, pInf]

theorem qf_ne_nInf (a : ℚ) : qf a ≠ nInf := by
  simp [qf, nInf]

/-- Python's built-in `round` on an exact rational: round half to even. -/
def pyRound (q : ℚ) : ℤ :=
  let f : ℤ := ⌊q⌋
  let r : ℚ := q - f
  if r < 1/2 then f
  else if 1/2 < r then f + 1
  else if 2 ∣ f then f else f + 1

/-- Python `int()` on a finite float: truncation toward zero. -/
def qTrunc (q : ℚ) : ℤ := if 0 ≤ q then ⌊q⌋ else ⌈q⌉

/-- Python `int()` on a possibly-infinite float value (total in the model;
infinite inputs never occur in the verified uses). -/
def efTrunc : EFloat → ℤ
  | none => 0
  | some none => 0
  | some (some q) => qTrunc q

/-- On an exact half-integer, `pyRound` picks the even neighbour. -/
theorem pyRound_half_even (k : ℤ) :
    pyRound ((k : ℚ) + 1/2) = if 2 ∣ k then k else k + 1 := by
  have hfloor : ⌊(k : ℚ) + 1/2⌋ = k := by
    rw [add_comm, Int.floor_add_int]
    norm_num
  unfold pyRound
  simp only [hfloor]
  have hr : ((k : ℚ) + 1/2) - (k : ℚ) = 1/2 := by ring
  rw [hr]
  norm_num

/- ## Insertion-ordered association lists (Python dicts) -/

/-- First-occurrence lookup in an association list. -/
def alookup {β : Type} (k : ℤ) : List (ℤ × β) → Option β
  | [] => none
  | (k', v) :: rest => if k' = k then some v else alookup k rest

/-- Update the value at a key in place if present, otherwise append the
binding at the end (Python dict assignment semantics). -/
def aupsert {β : Type} (k : ℤ) (v : β) : List (ℤ × β) → List (ℤ × β)
  | [] => [(k, v)]
  | (k', v') :: rest => if k' = k then (k, v) :: rest else (k', v') :: aupsert k v rest

@[simp] theorem alookup_nil {β : Type} (k : ℤ) : alookup (β := β) k [] = none := rfl

theorem alookup_cons {β : Type} (k k' : ℤ) (v : β) (rest : List (ℤ × β)) :
    alookup k ((k', v) :: rest) = if k' = k then some v else alookup k rest := rfl

theorem alookup_aupsert {β : Type} (k k' : ℤ) (v : β) (m : List (ℤ × β)) :
    alookup k (aupsert k' v m) = if k' = k then some v else alookup k m := by
  induction m with
  | nil => simp [aupsert, alookup_cons]
  | cons hd tl ih =>
    obtain ⟨k₀, v₀⟩ := hd
    simp only [aupsert]
    by_cases h0 : k₀ = k'
    · rw [if_pos h0, alookup_cons, alookup_cons]
      by_cases h1 : k' = k
      · simp [h1]
      · have h2 : ¬ k₀ = k := by rw [h0]; exact h1
        simp [h1, h2]
    · rw [if_neg h0, alookup_cons, ih, alookup_cons]
      by_cases h1 : k₀ = k
      · have h2 : ¬ k' = k := fun h => h0 (h1.trans h.symm)
        simp [h1, h2]
      · simp [h1]

/-- Keys of `aupsert`: unchanged when present, appended when absent. -/
theorem keys_aupsert {β : Type} (k : ℤ) (v : β) (m : List (ℤ × β)) :
    (aupsert k v m).map Prod.fst =
      if k ∈ m.map Prod.fst then m.map Prod.fst else m.map Prod.fst ++ [k] := by
  induction m with
  | nil => simp [aupsert]
  | cons hd tl ih =>
    obtain ⟨k₀, v₀⟩ := hd
    by_cases h0 : k₀ = k
    · subst h0
      simp [aupsert]
    · have h0' : ¬ k = k₀ := fun h => h0 h.symm
      simp only [aupsert, if_neg h0, List.map_cons, List.mem_cons, ih]
      by_cases h1 : k ∈ tl.map Prod.fst <;> simp [h1, h0']

theorem alookup_isSome_iff_mem {β : Type} (k : ℤ) (m : List (ℤ × β)) :
    (alookup k m).isSome ↔ k ∈ m.map Prod.fst := by
  induction m with
  | nil => simp
  | cons hd tl ih =>
    obtain ⟨k₀, v₀⟩ := hd
    by_cases h : k₀ = k
    · subst h; simp [alookup_cons]
    · have h' : ¬ k = k₀ := fun hh => h hh.symm
      simp [alookup_cons, h, h', ih]

theorem alookup_eq_none_of_not_mem {β : Type} {k : ℤ} {m : List (ℤ × β)}
    (h : k ∉ m.map Prod.fst) : alookup k m = none := by
  have := (alookup_isSome_iff_mem k m)
  cases hm : alookup k m with
  | none => rfl
  | some v => exact absurd (this.1 (by simp [hm])) h

theorem nodup_keys_aupsert {β : Type} (k : ℤ) (v : β) {m : List (ℤ × β)}
    (h : (m.map Prod.fst).Nodup) : ((aupsert k v m).map Prod.fst).Nodup := by
  rw [keys_aupsert]
  by_cases hk : k ∈ m.map Prod.fst
  · simpa [hk]
  · simp only [if_neg hk]
    refine List.nodup_append.2 ⟨h, List.nodup_singleton k, ?_⟩
    intro a ha hb
    rw [List.mem_singleton] at hb
    exact hk (hb ▸ ha)

/-- Lookup distributes over mapping the values of an association list. -/
theorem alookup_map_value {β γ : Type} (k : ℤ) (h : β → γ) (m : List (ℤ × β)) :
    alookup k (m.map (fun p => (p.1, h p.2))) = (alookup k m).map h := by
  induction m with
  | nil => simp
  | cons hd tl ih =>
    obtain ⟨k₀, v₀⟩ := hd
    by_cases hk : k₀ = k <;> simp [alookup_cons, hk, ih]

/- ## Generic per-entry folding into an association list

Both the engine's reduce loop and the driver's merge loop fold a list of
entries into a dict: each entry names at most one integer key and combines
with the accumulator previously stored at that key. -/

section FoldEntries

variable {α β : Type} (keyOf : α → Option ℤ) (g : Option β → α → β)

/-- Process one entry: skip it when its key does not parse, otherwise
combine it with the current accumulator at that key. -/
def stepEntry (m : List (ℤ × β)) (e : α) : List (ℤ × β) :=
  match keyOf e with
  | none => m
  | some k => aupsert k (g (alookup k m) e) m

/-- Fold a whole entry list into the dict. -/
def foldEntries (m : List (ℤ × β)) (es : List α) : List (ℤ × β) :=
  es.foldl (stepEntry keyOf g) m

@[simp] theorem foldEntries_nil (m : List (ℤ × β)) : foldEntries keyOf g m [] = m := rfl

theorem foldEntries_cons (m : List (ℤ × β)) (e : α) (es : List α) :
    foldEntries keyOf g m (e :: es) = foldEntries keyOf g (stepEntry keyOf g m e) es := rfl

theorem alookup_stepEntry (k : ℤ) (m : List (ℤ × β)) (e : α) :
    alookup k (stepEntry keyOf g m e) =
      if keyOf e = some k then some (g (alookup k m) e) else alookup k m := by
  unfold stepEntry
  cases hke : keyOf e with
  | none => simp
  | some k₀ =>
    rw [alookup_aupsert]
    by_cases h : k₀ = k
    · subst h; simp
    · have : ¬ (some k₀ = some k) := by simpa using h
      simp [h, this]

/-- The value finally stored at key `k` only depends on the entries whose
key is `k`, folded in order over the initial value. -/
theorem alookup_foldEntries (k : ℤ) (m : List (ℤ × β)) (es : List α) :
    alookup k (foldEntries keyOf g m es) =
      es.foldl (fun a e => if keyOf e = some k then some (g a e) else a) (alookup k m) := by
  induction es generalizing m with
  | nil => rfl
  | cons e es ih =>
    rw [foldEntries_cons, ih, List.foldl_cons, alookup_stepEntry]

/-- The per-key fold factors through the sublist of entries keyed at `k`. -/
theorem foldl_if_filter (k : ℤ) (es : List α) (a : Option β) :
    es.foldl (fun a e => if keyOf e = some k then some (g a e) else a) a =
      (es.filter (fun e => keyOf e = some k)).foldl (fun a e => some (g a e)) a := by
  induction es generalizing a with
  | nil => rfl
  | cons e es ih =>
    by_cases h : keyOf e = some k <;> simp [List.filter_cons, h, ih]

theorem foldl_some_isSome (es : List α) (a : Option β)
    (gg : Option β → α → β) :
    (es.foldl (fun a e => some (gg a e)) a).isSome ↔ a.isSome ∨ es ≠ [] := by
  induction es generalizing a with
  | nil => simp
  | cons e es ih =>
    simp only [List.foldl_cons, ih]
    simp

/-- A key is present after the fold iff it was present before or some entry
names it. -/
theorem mem_keys_foldEntries (k : ℤ) (m : List (ℤ × β)) (es : List α) :
    k ∈ (foldEntries keyOf g m es).map Prod.fst ↔
      k ∈ m.map Prod.fst ∨ ∃ e ∈ es, keyOf e = some k := by
  rw [← alookup_isSome_iff_mem, alookup_foldEntries, foldl_if_filter,
    foldl_some_isSome, alookup_isSome_iff_mem]
  constructor
  · rintro (h | h)
    · exact Or.inl h
    · right
      have : (es.filter (fun e => keyOf e = some k)) ≠ [] := h
      obtain ⟨e, he⟩ := List.exists_mem_of_ne_nil _ this
      have := List.of_mem_filter he
      exact ⟨e, List.mem_of_mem_filter he, by simpa using this⟩
  · rintro (h | ⟨e, he, hke⟩)
    · exact Or.inl h
    · right
      intro hnil
      have : e ∈ es.filter (fun e => keyOf e = some k) :=
        List.mem_filter.2 ⟨he, by simpa using hke⟩
      rw [hnil] at this
      simp at this

theorem nodup_keys_stepEntry {m : List (ℤ × β)} (e : α)
    (h : (m.map Prod.fst).Nodup) : ((stepEntry keyOf g m e).map Prod.fst).Nodup := by
  unfold stepEntry
  cases keyOf e with
  | none => exact h
  | some k => exact nodup_keys_aupsert _ _ h

theorem nodup_keys_foldEntries {m : List (ℤ × β)} (es : List α)
    (h : (m.map Prod.fst).Nodup) : ((foldEntries keyOf g m es).map Prod.fst).Nodup := by
  induction es generalizing m with
  | nil => exact h
  | cons e es ih => exact ih (nodup_keys_stepEntry keyOf g e h)

end FoldEntries

/- ## Engine compute stage (`engine.py`, `MapReduceEngine`) -/

/-- One parsed input record `{year, score}`. -/
structure Record where
  year : ℤ
  score : ℚ
  deriving DecidableEq

/-- The mapper's per-record seed `{'min','max','sum','count'}`. -/
structure MappedVal where
  min : ℚ
  max : ℚ
  sum : ℚ
  count : ℕ
  deriving DecidableEq

/-- `MapReduceEngine.mapper`: each record becomes the pair
`(year, {min: score, max: score, sum: score, count: 1})`, in input order. -/
def mapper (data : List Record) : List (ℤ × MappedVal) :=
  data.map (fun row => (row.year, ⟨row.score, row.score, row.score, 1⟩))

/-- The reducer's running accumulator for one year, seeded from
`{'min': inf, 'max': -inf, 'sum': 0, 'count': 0}`. -/
structure RAcc where
  min : EFloat
  max : EFloat
  sum : ℚ
  count : ℕ
  deriving DecidableEq

/-- Fold one mapped pair into the accumulator stored for its year
(`min`/`max`/`sum`/`count` updates of `MapReduceEngine.reducer`). -/
def gRed (old : Option RAcc) (e : ℤ × MappedVal) : RAcc :=
  let acc := old.getD ⟨pInf, nInf, 0, 0⟩
  { min := min acc.min (qf e.2.min)
    max := max acc.max (qf e.2.max)
    sum := acc.sum + e.2.sum
    count := acc.count + e.2.count }

/-- The first loop of `MapReduceEngine.reducer`: fold all mapped pairs into
per-year accumulators, keyed by year in first-appearance order. -/
def reducerFold (mapped_data : List (ℤ × MappedVal)) : List (ℤ × RAcc) :=
  foldEntries (fun e => some e.1) gRed [] mapped_data

/-- The engine's externally visible per-year result `{min, max, avg}`. -/
structure YStats where
  min : EFloat
  max : EFloat
  avg : ℤ
  deriving DecidableEq

/-- The second loop of `MapReduceEngine.reducer`: replace each accumulator
by `{min, max, avg = round(sum/count)}`. -/
def reducer (mapped_data : List (ℤ × MappedVal)) : List (ℤ × YStats) :=
  (reducerFold mapped_data).map
    (fun p => (p.1, ⟨p.2.min, p.2.max, pyRound (p.2.sum / (p.2.count : ℚ))⟩))

/-- `[data[i:i + chunk_size] for i in range(0, len(data), chunk_size)]`,
with fuel bounding the recursion depth (any fuel at least `l.length`
gives the real value when the chunk size is positive). -/
def chunksOfAux (cs : ℕ) : ℕ → List Record → List (List Record)
  | 0, _ => []
  | _ + 1, [] => []
  | fuel + 1, x :: xs => ((x :: xs).take cs) :: chunksOfAux cs fuel ((x :: xs).drop cs)

def chunksOf (cs : ℕ) (l : List Record) : List (List Record) :=
  chunksOfAux cs l.length l

/-- The chunking performed by `MapReduceEngine.process_batch`:
`chunk_size = max(1, len(data) // num_workers)`. -/
def engineChunks (num_workers : ℕ) (data : List Record) : List (List Record) :=
  chunksOf (max 1 (data.length / num_workers)) data

/-- `MapReduceEngine.process_batch`: empty batches short-circuit to an empty
result; otherwise the batch is chunked, mapped chunk by chunk, the mapped
outputs are concatenated in chunk order, and the reducer runs over them.
A worker pool with zero processes cannot be created, and that failure is
converted to an `{'error': ...}` response by the `except` clause. -/
def process_batch (num_workers : ℕ) (data : List Record) :
    Except String (List (ℤ × YStats)) :=
  if data = [] then .ok []
  else if num_workers = 0 then .error "Number of processes must be at least 1"
  else .ok (reducer (((engineChunks num_workers data).map mapper).flatten))

/- ### Chunking lemmas -/

theorem chunksOfAux_nil (cs fuel : ℕ) : chunksOfAux cs fuel [] = [] := by
  cases fuel <;> rfl

theorem chunksOfAux_fuel_irrel (cs : ℕ) (hcs : 1 ≤ cs) :
    ∀ fuel₁ fuel₂ (l : List Record), l.length ≤ fuel₁ → l.length ≤ fuel₂ →
      chunksOfAux cs fuel₁ l = chunksOfAux cs fuel₂ l := by
  intro fuel₁
  induction fuel₁ with
  | zero =>
    intro fuel₂ l h1 _
    have : l = [] := List.length_eq_zero.1 (Nat.le_zero.1 h1)
    subst this
    rw [chunksOfAux_nil, chunksOfAux_nil]
  | succ f ih =>
    intro fuel₂ l h1 h2
    cases l with
    | nil => rw [chunksOfAux_nil, chunksOfAux_nil]
    | cons x xs =>
      cases fuel₂ with
      | zero => simp at h2
      | succ f₂ =>
        show _ :: _ = _ :: _
        have hdrop : ((x :: xs).drop cs).length ≤ f := by
          rw [List.length_drop]
          simp only [List.length_cons] at h1 ⊢
          omega
        have hdrop₂ : ((x :: xs).drop cs).length ≤ f₂ := by
          rw [List.length_drop]
          simp only [List.length_cons] at h2 ⊢
          omega
        rw [ih f₂ _ hdrop hdrop₂]

theorem chunksOf_nil (cs : ℕ) : chunksOf cs [] = [] := rfl

/-- Unfolding equation for `chunksOf` on a nonempty list. -/
theorem chunksOf_cons (cs : ℕ) (hcs : 1 ≤ cs) (l : List Record) (hl : l ≠ []) :
    chunksOf cs l = l.take cs :: chunksOf cs (l.drop cs) := by
  obtain ⟨x, xs, rfl⟩ := List.exists_cons_of_ne_nil hl
  show chunksOfAux cs (xs.length + 1) _ = _
  show _ :: _ = _ :: _
  refine congrArg _ ?_
  exact chunksOfAux_fuel_irrel cs hcs _ _ _
    (by rw [List.length_drop]; simp; omega) le_rfl

theorem chunksOf_flatten (cs : ℕ) (hcs : 1 ≤ cs) :
    ∀ fuel (l : List Record), l.length ≤ fuel → (chunksOf cs l).flatten = l := by
  intro fuel
  induction fuel with
  | zero =>
    intro l h
    have : l = [] := List.length_eq_zero.1 (Nat.le_zero.1 h)
    subst this
    rfl
  | succ f ih =>
    intro l h
    by_cases hl : l = []
    · subst hl; rfl
    · rw [chunksOf_cons cs hcs l hl, List.flatten_cons,
        ih (l.drop cs) (by rw [List.length_drop]; omega),
        List.take_append_drop]

theorem chunksOf_chunk_bounds (cs : ℕ) (hcs : 1 ≤ cs) :
    ∀ fuel (l : List Record), l.length ≤ fuel →
      ∀ c ∈ chunksOf cs l, c ≠ [] ∧ c.length ≤ cs := by
  intro fuel
  induction fuel with
  | zero =>
    intro l h c hc
    have : l = [] := List.length_eq_zero.1 (Nat.le_zero.1 h)
    subst this
    simp [chunksOf_nil] at hc
  | succ f ih =>
    intro l h c hc
    by_cases hl : l = []
    · subst hl; simp [chunksOf_nil] at hc
    · rw [chunksOf_cons cs hcs l hl] at hc
      rcases List.mem_cons.1 hc with rfl | hc
      · constructor
        · intro htake
          have h0 := congrArg List.length htake
          rw [List.length_take] at h0
          simp only [List.length_nil] at h0
          rcases Nat.min_eq_zero_iff.1 h0 with h1 | h1
          · omega
          · exact hl (List.length_eq_zero.1 h1)
        · rw [List.length_take]; omega
      · exact ih (l.drop cs) (by rw [List.length_drop]; omega) c hc

/-- Every chunk except possibly the last has length exactly `cs`. -/
theorem chunksOf_chunk_full (cs : ℕ) (hcs : 1 ≤ cs) :
    ∀ fuel (l : List Record), l.length ≤ fuel →
      ∀ i, i + 1 < (chunksOf cs l).length → ((chunksOf cs l).getD i []).length = cs := by
  intro fuel
  induction fuel with
  | zero =>
    intro l h i hi
    have : l = [] := List.length_eq_zero.1 (Nat.le_zero.1 h)
    subst this
    simp [chunksOf_nil] at hi
  | succ f ih =>
    intro l h i hi
    by_cases hl : l = []
    · subst hl; simp [chunksOf_nil] at hi
    · rw [chunksOf_cons cs hcs l hl] at hi ⊢
      cases i with
      | zero =>
        simp only [List.getD_cons_zero]
        simp only [List.length_cons] at hi
        have hrest : chunksOf cs (l.drop cs) ≠ [] := by
          intro hnil
          rw [hnil] at hi
          simp at hi
        have hdropne : l.drop cs ≠ [] := by
          intro hnil
          rw [hnil, chunksOf_nil] at hrest
          exact hrest rfl
        have : cs < l.length := by
          by_contra hle
          exact hdropne (List.drop_eq_nil_iff.2 (by omega))
        rw [List.length_take]
        omega
      | succ j =>
        simp only [List.getD_cons_succ]
        simp only [List.length_cons] at hi
        exact ih (l.drop cs) (by rw [List.length_drop]; omega) j (by omega)

/-- The number of chunks is `⌈len / cs⌉`. -/
theorem chunksOf_length (cs : ℕ) (hcs : 1 ≤ cs) :
    ∀ fuel (l : List Record), l.length ≤ fuel →
      (chunksOf cs l).length = (l.length + cs - 1) / cs := by
  intro fuel
  induction fuel with
  | zero =>
    intro l h
    have : l = [] := List.length_eq_zero.1 (Nat.le_zero.1 h)
    subst this
    rw [chunksOf_nil]
    simp only [List.length_nil]
    have h0 : (0 + cs - 1) / cs = 0 := Nat.div_eq_of_lt (by omega)
    rw [h0]
  | succ f ih =>
    intro l h
    by_cases hl : l = []
    · subst hl
      rw [chunksOf_nil]
      simp only [List.length_nil]
      have h0 : (0 + cs - 1) / cs = 0 := Nat.div_eq_of_lt (by omega)
      rw [h0]
    · rw [chunksOf_cons cs hcs l hl]
      have hlen : 1 ≤ l.length := by
        cases l with
        | nil => exact absurd rfl hl
        | cons _ _ => simp
      by_cases hsmall : l.length ≤ cs
      · have hdrop : l.drop cs = [] := List.drop_eq_nil_iff.2 hsmall
        rw [hdrop, chunksOf_nil]
        have : (l.length + cs - 1) / cs = 1 :=
          Nat.div_eq_of_lt_le (by omega) (by omega)
        simp [this]
      · push_neg at hsmall
        rw [List.length_cons, ih (l.drop cs) (by rw [List.length_drop]; omega),
          List.length_drop]
        have e1 : l.length - cs + cs - 1 = l.length - 1 := by omega
        have e2 : l.length + cs - 1 = (l.length - 1) + cs := by omega
        rw [e1, e2, Nat.add_div_right _ (by omega)]

/- ## Driver (`driver.py`, `MapReduceDriver`) -/

/-- A key of a response dict as received on the wire: either a string that
`int()` parses to an integer, or one whose parse raises `ValueError`. -/
inductive YKey : Type
  | num (z : ℤ)
  | junk (s : String)
  deriving DecidableEq

/-- A per-year stats dict in an engine response; any of the `'min'`,
`'max'`, `'avg'` fields may be absent (`none`), in which case indexing it
raises `KeyError`. -/
structure RStats : Type where
  min : Option ℚ
  max : Option ℚ
  avg : Option ℚ
  deriving DecidableEq

/-- One engine response: a year→stats mapping in insertion order. -/
abbrev Response := List (YKey × RStats)

/-- The driver's per-year merge accumulator, seeded by the `defaultdict`
with `{'min': inf, 'max': -inf, 'sum': 0, 'count': 0}`. -/
structure MAcc : Type where
  min : EFloat
  max : EFloat
  sum : ℚ
  count : ℕ
  deriving DecidableEq

/-- `int(year_str)`: `some` on an integer-parsable key, `none` otherwise. -/
def parseYKey : YKey × RStats → Option ℤ
  | (.num z, _) => some z
  | (.junk _, _) => none

/-- The body of the driver's per-entry `try` block, evaluated left to
right: `merged[year]` is created by the `defaultdict` before `stats['min']`
is read, so a `KeyError` on a missing field aborts the remaining updates
but keeps the updates already applied. -/
def gMerge (old : Option MAcc) (e : YKey × RStats) : MAcc :=
  let acc := old.getD ⟨pInf, nInf, 0, 0⟩
  match e.2.min with
  | none => acc
  | some mn =>
    let acc := { acc with min := min acc.min (qf mn) }
    match e.2.max with
    | none => acc
    | some mx =>
      let acc := { acc with max := max acc.max (qf mx) }
      match e.2.avg with
      | none => acc
      | some av => { acc with sum := acc.sum + av, count := acc.count + 1 }

/-- The accumulation loop of `MapReduceDriver.merge_results`: fold every
response (empty ones are skipped by `if not result: continue`, which is a
no-op) entry by entry into the `merged` defaultdict. -/
def mergeFold (results : List Response) : List (ℤ × MAcc) :=
  results.foldl
    (fun merged result =>
      if result = [] then merged
      else result.foldl (stepEntry parseYKey gMerge) merged)
    []

/-- The driver's final per-year statistics `{min, max, avg}`. -/
structure FStats : Type where
  min : EFloat
  max : EFloat
  avg : ℤ
  deriving DecidableEq

/-- The final pass of `MapReduceDriver.merge_results`: keep the years whose
accumulator has `count > 0` and compute `avg = round(sum / count)`. -/
def merge_results (results : List Response) : List (ℤ × FStats) :=
  (mergeFold results).filterMap
    (fun p =>
      if 0 < p.2.count then
        some (p.1, ⟨p.2.min, p.2.max, pyRound (p.2.sum / (p.2.count : ℚ))⟩)
      else none)

/-- `MapReduceDriver.write_output`: one output line per year, over
`sorted(results.keys())`, each line carrying
`year, int(min), int(max), int(avg)` in that order. -/
def write_output (results : List (ℤ × FStats)) : List (ℤ × ℤ × ℤ × ℤ) :=
  (List.insertionSort (· ≤ ·) (results.map Prod.fst)).map
    (fun year =>
      match alookup year results with
      | some stats => (year, efTrunc stats.min, efTrunc stats.max, stats.avg)
      | none => (year, 0, 0, 0))

/- ### Dispatch and retry (`MapReduceDriver.send_to_engine`) -/

/-- An engine's reply payload: either a year→stats mapping or an
`{'error': msg}` object. -/
inductive WireResp : Type
  | errorObj (msg : String)
  | yearMap (r : Response)
  deriving DecidableEq

/-- What one connection attempt observes: a connection-level exception, a
malformed/missing response (an exception during receive or deserialize), or
a successfully parsed reply. -/
inductive NetOutcome : Type
  | connError
  | malformed
  | reply (w : WireResp)
  deriving DecidableEq

/-- Externally visible driver actions during one dispatch. -/
inductive DEvent : Type
  | attempt (i : ℕ)
  | sleep (d : ℕ)
  deriving DecidableEq

/-- The retry loop of `MapReduceDriver.send_to_engine`, iterating over the
remaining attempt indices of `range(max_retries)`: a parsed reply with an
`'error'` field, or any exception, retries after a `retry_delay` sleep
while attempts remain (`attempt < max_retries - 1`), and degrades to the
empty result `{}` when the budget is exhausted; a parsed year-map reply
returns immediately. The returned event list records attempts and sleeps
in order. -/
def sendLoop (net : ℕ → NetOutcome) (retry_delay : ℕ) :
    List ℕ → Response × List DEvent
  | [] => ([], [])
  | i :: rest =>
    match net i with
    | .reply (.yearMap r) => (r, [.attempt i])
    | .reply (.errorObj _) =>
      if rest = [] then ([], [.attempt i])
      else
        let r := sendLoop net retry_delay rest
        (r.1, .attempt i :: .sleep retry_delay :: r.2)
    | .connError =>
      if rest = [] then ([], [.attempt i])
      else
        let r := sendLoop net retry_delay rest
        (r.1, .attempt i :: .sleep retry_delay :: r.2)
    | .malformed =>
      if rest = [] then ([], [.attempt i])
      else
        let r := sendLoop net retry_delay rest
        (r.1, .attempt i :: .sleep retry_delay :: r.2)

/-- `MapReduceDriver.send_to_engine` with `max_retries = 3`,
`retry_delay = 2`. -/
def send_to_engine (net : ℕ → NetOutcome) : Response × List DEvent :=
  sendLoop net 2 (List.range 3)

/-- An attempt outcome the driver treats as a retryable failure. -/
def retryFail (o : NetOutcome) : Prop :=
  o = .connError ∨ o = .malformed ∨ ∃ msg, o = .reply (.errorObj msg)

/- ### Wire framing -/

/-- Big-endian decimal digits of `n`, as produced by Python `str(n)`. -/
def decDigits (n : ℕ) : List ℕ :=
  if n = 0 then [0] else (Nat.digits 10 n).reverse

/-- The ASCII bytes of the decimal representation of `n`. -/
def digitBytes (n : ℕ) : List ℕ := (decDigits n).map (· + 48)

/-- `f"{n:8d}".encode()`: the decimal bytes right-justified in a field of
minimum width 8, padded with ASCII spaces on the left. -/
def headerBytes (n : ℕ) : List ℕ :=
  List.replicate (8 - (digitBytes n).length) 32 ++ digitBytes n

/-- Python `str.strip()` restricted to the space character. -/
def pyStrip (bs : List ℕ) : List ℕ :=
  ((bs.dropWhile (· == 32)).reverse.dropWhile (· == 32)).reverse

/-- `int(size_data.decode().strip())` on a block of ASCII bytes. -/
def parseDec (bs : List ℕ) : ℕ :=
  (pyStrip bs).foldl (fun a b => 10 * a + (b - 48)) 0

/-- The receiving side of the framing: read exactly 8 bytes from the
stream and parse them as the payload length. -/
def recvLen (stream : List ℕ) : ℕ := parseDec (stream.take 8)

/- ## Bridging lemmas for the engine pipeline -/

theorem mapper_append (l₁ l₂ : List Record) :
    mapper (l₁ ++ l₂) = mapper l₁ ++ mapper l₂ := by
  simp [mapper]

/-- Mapping chunk by chunk and concatenating in chunk order equals mapping
the concatenation. -/
theorem mapper_flatten (css : List (List Record)) :
    (css.map mapper).flatten = mapper css.flatten := by
  induction css with
  | nil => rfl
  | cons c css ih =>
    simp only [List.map_cons, List.flatten_cons, mapper_append, ih]

/- ## Claim theorems -/

/-- C7: an empty input batch sent to the engine compute stage yields an
empty result mapping (`{}`), not an error object, for every worker count. -/
theorem c7_empty_batch_empty_result (num_workers : ℕ) :
    process_batch num_workers [] = .ok [] := rfl

/-- C3: for every record batch and every decomposition of it into contiguous
chunks, mapping chunk by chunk, concatenating the mapped outputs in chunk
order and reducing yields exactly the same per-year statistics as mapping
the whole batch as one chunk and reducing. -/
theorem c3_chunking_does_not_change_results (data : List Record)
    (css : List (List Record)) (h : css.flatten = data) :
    reducer ((css.map mapper).flatten) = reducer (mapper data) := by
  rw [mapper_flatten, h]

/-- C3 witness: a 3-record batch split into two chunks. -/
theorem c3_witness :
    ([[⟨2020, 80⟩, ⟨2020, 90⟩], [⟨2021, 70⟩]] : List (List Record)).flatten =
        [⟨2020, 80⟩, ⟨2020, 90⟩, ⟨2021, 70⟩] ∧
    reducer ((([[⟨2020, 80⟩, ⟨2020, 90⟩], [⟨2021, 70⟩]] : List (List Record)).map
        mapper).flatten) =
      reducer (mapper [⟨2020, 80⟩, ⟨2020, 90⟩, ⟨2021, 70⟩]) :=
  ⟨rfl, c3_chunking_does_not_change_results _ _ rfl⟩

/-- A concrete 5-record batch. -/
def exBatch5 : List Record :=
  [⟨2020, 1⟩, ⟨2020, 2⟩, ⟨2020, 3⟩, ⟨2020, 4⟩, ⟨2020, 5⟩]

/-- C2 counterexample: with 5 records and 2 workers the engine produces 3
chunks of sizes 2, 2, 1 — not `num_workers = 2` chunks of size
`ceil(5/2) = 3`: the code uses `max(1, len // num_workers)` (floor
division), so the chunk count can exceed the worker count. -/
theorem c2_counterexample :
    (engineChunks 2 exBatch5).map List.length = [2, 2, 1] ∧
    (engineChunks 2 exBatch5).length = 3 ∧
    (engineChunks 2 exBatch5).length ≠ 2 ∧
    ((engineChunks 2 exBatch5).getD 0 []).length ≠ (5 + 2 - 1) / 2 := by
  decide

/-- C2 (amended): for every non-empty batch and `num_workers ≥ 1`, the
engine splits the batch into contiguous chunks of size
`chunk_size = max(1, len // num_workers)` (floor division, clamped below
by 1) — every chunk except possibly the last is exactly `chunk_size` long,
no chunk is empty, the number of chunks is `⌈len / chunk_size⌉` (which can
exceed `num_workers`), the chunks concatenate back to the batch, and the
mapped outputs are concatenated in chunk order. -/
theorem c2_amended_chunking (num_workers : ℕ) (data : List Record)
    (_hw : 1 ≤ num_workers) (_hd : data ≠ []) :
    (engineChunks num_workers data).flatten = data ∧
    (engineChunks num_workers data).length =
      (data.length + max 1 (data.length / num_workers) - 1) /
        max 1 (data.length / num_workers) ∧
    (∀ c ∈ engineChunks num_workers data,
      c ≠ [] ∧ c.length ≤ max 1 (data.length / num_workers)) ∧
    (∀ i, i + 1 < (engineChunks num_workers data).length →
      ((engineChunks num_workers data).getD i []).length =
        max 1 (data.length / num_workers)) ∧
    ((engineChunks num_workers data).map mapper).flatten = mapper data := by
  have hcs : 1 ≤ max 1 (data.length / num_workers) := le_max_left _ _
  have hfl : (engineChunks num_workers data).flatten = data :=
    chunksOf_flatten _ hcs data.length data le_rfl
  refine ⟨hfl, ?_, ?_, ?_, ?_⟩
  · exact chunksOf_length _ hcs data.length data le_rfl
  · exact chunksOf_chunk_bounds _ hcs data.length data le_rfl
  · exact chunksOf_chunk_full _ hcs data.length data le_rfl
  · rw [mapper_flatten, hfl]

/-- C2 witness: the amended statement instantiated at the 5-record batch
with 2 workers. -/
theorem c2_amended_witness :
    (1 ≤ 2 ∧ exBatch5 ≠ []) ∧
    ((engineChunks 2 exBatch5).flatten = exBatch5 ∧
      (engineChunks 2 exBatch5).length =
        (exBatch5.length + max 1 (exBatch5.length / 2) - 1) /
          max 1 (exBatch5.length / 2) ∧
      (∀ c ∈ engineChunks 2 exBatch5,
        c ≠ [] ∧ c.length ≤ max 1 (exBatch5.length / 2)) ∧
      (∀ i, i + 1 < (engineChunks 2 exBatch5).length →
        ((engineChunks 2 exBatch5).getD i []).length =
          max 1 (exBatch5.length / 2)) ∧
      ((engineChunks 2 exBatch5).map mapper).flatten = mapper exBatch5) :=
  ⟨⟨by decide, by decide⟩, c2_amended_chunking 2 exBatch5 (by decide) (by decide)⟩

/-- Recognizer for attempt events. -/
def isAttempt : DEvent → Bool
  | .attempt _ => true
  | .sleep _ => false

/-- The retry loop never makes more attempts than it has attempt indices. -/
theorem sendLoop_attempts_le (net : ℕ → NetOutcome) (rd : ℕ) :
    ∀ is, ((sendLoop net rd is).2.countP isAttempt) ≤ is.length := by
  intro is
  induction is with
  | nil => simp [sendLoop]
  | cons i rest ih =>
    cases hni : net i with
    | connError =>
      by_cases hr : rest = []
      · simp [sendLoop, hni, hr, isAttempt, List.countP_cons]
      · simp [sendLoop, hni, hr, List.countP_cons, isAttempt]
        omega
    | malformed =>
      by_cases hr : rest = []
      · simp [sendLoop, hni, hr, isAttempt, List.countP_cons]
      · simp [sendLoop, hni, hr, List.countP_cons, isAttempt]
        omega
    | reply w =>
      cases w with
      | errorObj msg =>
        by_cases hr : rest = []
        · simp [sendLoop, hni, hr, isAttempt, List.countP_cons]
        · simp [sendLoop, hni, hr, List.countP_cons, isAttempt]
          omega
      | yearMap r =>
        simp [sendLoop, hni, isAttempt, List.countP_cons]

/-- C5: one dispatch makes at most 3 attempts; a first successful year-map
reply (even an empty one) at attempt 0, 1 or 2 is returned as-is, with a
fixed 2-unit sleep between consecutive attempts; and when all 3 attempts
fail retryably (connection error, malformed/missing response, or an
`'error'` reply) the dispatch returns the empty result with no exception
escaping. -/
theorem c5_retry_semantics (net : ℕ → NetOutcome) :
    ((send_to_engine net).2.countP isAttempt ≤ 3) ∧
    (∀ r, net 0 = .reply (.yearMap r) →
      send_to_engine net = (r, [.attempt 0])) ∧
    (∀ r, retryFail (net 0) → net 1 = .reply (.yearMap r) →
      send_to_engine net = (r, [.attempt 0, .sleep 2, .attempt 1])) ∧
    (∀ r, retryFail (net 0) → retryFail (net 1) → net 2 = .reply (.yearMap r) →
      send_to_engine net =
        (r, [.attempt 0, .sleep 2, .attempt 1, .sleep 2, .attempt 2])) ∧
    (retryFail (net 0) → retryFail (net 1) → retryFail (net 2) →
      send_to_engine net =
        ([], [.attempt 0, .sleep 2, .attempt 1, .sleep 2, .attempt 2])) := by
  have hrange : List.range 3 = [0, 1, 2] := rfl
  refine ⟨?_, ?_, ?_, ?_, ?_⟩
  · exact sendLoop_attempts_le net 2 (List.range 3)
  · intro r h0
    simp [send_to_engine, hrange, sendLoop, h0]
  · intro r h0 h1
    rcases h0 with h0 | h0 | ⟨m, h0⟩ <;>
      simp [send_to_engine, hrange, sendLoop, h0, h1]
  · intro r h0 h1 h2
    rcases h0 with h0 | h0 | ⟨m0, h0⟩ <;> rcases h1 with h1 | h1 | ⟨m1, h1⟩ <;>
      simp [send_to_engine, hrange, sendLoop, h0, h1, h2]
  · intro h0 h1 h2
    rcases h0 with h0 | h0 | ⟨m0, h0⟩ <;> rcases h1 with h1 | h1 | ⟨m1, h1⟩ <;>
      rcases h2 with h2 | h2 | ⟨m2, h2⟩ <;>
      simp [send_to_engine, hrange, sendLoop, h0, h1, h2]

/-- C5 witness: an engine that always fails with a connection error yields
the empty result after exactly 3 attempts with 2-unit sleeps between
them. -/
theorem c5_witness :
    retryFail ((fun _ => NetOutcome.connError) 0) ∧
    send_to_engine (fun _ => NetOutcome.connError) =
      ([], [.attempt 0, .sleep 2, .attempt 1, .sleep 2, .attempt 2]) :=
  ⟨Or.inl rfl,
    (c5_retry_semantics (fun _ => NetOutcome.connError)).2.2.2.2
      (Or.inl rfl) (Or.inl rfl) (Or.inl rfl)⟩

/- ## Framing lemmas -/

/-- Big-endian decimal parsing inverts `Nat.ofDigits`, with the
accumulator scaled by `10 ^ length`. -/
theorem foldl_reverse_ofDigits (L : List ℕ) (a : ℕ) :
    (L.reverse).foldl (fun x d => 10 * x + d) a =
      a * 10 ^ L.length + Nat.ofDigits 10 L := by
  induction L generalizing a with
  | nil => simp
  | cons d L ih =>
    rw [List.reverse_cons, List.foldl_append, ih]
    simp only [List.foldl_cons, List.foldl_nil, Nat.ofDigits_cons, List.length_cons]
    ring

/-- Parsing the decimal digit string of `n` recovers `n`. -/
theorem foldl_decDigits (n : ℕ) :
    (decDigits n).foldl (fun a d => 10 * a + d) 0 = n := by
  unfold decDigits
  by_cases h : n = 0
  · subst h; simp
  · rw [if_neg h, foldl_reverse_ofDigits, Nat.ofDigits_digits]
    simp

theorem decDigits_ne_nil (n : ℕ) : decDigits n ≠ [] := by
  unfold decDigits
  by_cases h : n = 0
  · simp [h]
  · rw [if_neg h]
    simp only [ne_eq, List.reverse_eq_nil_iff]
    exact Nat.digits_ne_nil_iff_ne_zero.2 h

theorem decDigits_lt_ten (n : ℕ) : ∀ d ∈ decDigits n, d < 10 := by
  intro d hd
  unfold decDigits at hd
  by_cases h : n = 0
  · rw [if_pos h] at hd
    simp at hd
    omega
  · rw [if_neg h, List.mem_reverse] at hd
    exact Nat.digits_lt_base (by norm_num) hd

theorem decDigits_length_le (n : ℕ) (h : n < 10 ^ 8) :
    (decDigits n).length ≤ 8 := by
  unfold decDigits
  by_cases h0 : n = 0
  · simp [h0]
  · rw [if_neg h0, List.length_reverse,
      Nat.digits_len 10 n (by norm_num) h0]
    have := (Nat.lt_pow_iff_log_lt (by norm_num : (1:ℕ) < 10) h0).1 h
    omega

theorem digitBytes_ne_nil (n : ℕ) : digitBytes n ≠ [] := by
  unfold digitBytes
  simp [decDigits_ne_nil n]

theorem digitBytes_ge (n : ℕ) : ∀ b ∈ digitBytes n, 48 ≤ b ∧ b ≤ 57 := by
  intro b hb
  unfold digitBytes at hb
  obtain ⟨d, hd, rfl⟩ := List.mem_map.1 hb
  have := decDigits_lt_ten n d hd
  omega

/-- Dropping leading spaces from a space-padded digit block leaves
exactly the digit block. -/
theorem dropWhile_pad (k : ℕ) (ds : List ℕ) (hds : ∀ b ∈ ds, ¬ (b == 32) = true) :
    (List.replicate k 32 ++ ds).dropWhile (· == 32) = ds := by
  induction k with
  | zero =>
    simp only [List.replicate, List.nil_append]
    cases ds with
    | nil => rfl
    | cons b bs =>
      rw [List.dropWhile_cons, if_neg (hds b (List.mem_cons_self b bs))]
  | succ k ih =>
    rw [List.replicate_succ, List.cons_append, List.dropWhile_cons,
      if_pos (by norm_num)]
    exact ih

theorem dropWhile_no_space (ds : List ℕ) (hds : ∀ b ∈ ds, ¬ (b == 32) = true) :
    ds.dropWhile (· == 32) = ds := by
  have := dropWhile_pad 0 ds hds
  simpa using this

/-- `strip()` on a left-space-padded digit block yields the digit block. -/
theorem pyStrip_pad (k : ℕ) (ds : List ℕ) (hds : ∀ b ∈ ds, 48 ≤ b) :
    pyStrip (List.replicate k 32 ++ ds) = ds := by
  have hne : ∀ b ∈ ds, ¬ (b == 32) = true := by
    intro b hb
    have := hds b hb
    simp only [beq_iff_eq]
    omega
  have hner : ∀ b ∈ ds.reverse, ¬ (b == 32) = true := by
    intro b hb
    exact hne b (List.mem_reverse.1 hb)
  unfold pyStrip
  rw [dropWhile_pad k ds hne, dropWhile_no_space ds.reverse hner,
    List.reverse_reverse]

theorem headerBytes_length_of_lt (n : ℕ) (h : n < 10 ^ 8) :
    (headerBytes n).length = 8 := by
  unfold headerBytes
  rw [List.length_append, List.length_replicate]
  have h1 : (digitBytes n).length = (decDigits n).length := by
    unfold digitBytes
    rw [List.length_map]
  have h2 := decDigits_length_le n h
  omega

/-- Parsing the framed header recovers the length, for any trailing
payload. -/
theorem recvLen_headerBytes (n : ℕ) (payload : List ℕ) (h : n < 10 ^ 8) :
    recvLen (headerBytes n ++ payload) = n := by
  unfold recvLen
  have hlen := headerBytes_length_of_lt n h
  rw [List.take_append_of_le_length (by omega), ← hlen, List.take_length]
  unfold parseDec
  unfold headerBytes
  rw [pyStrip_pad _ _ (fun b hb => (digitBytes_ge n b hb).1)]
  unfold digitBytes
  rw [List.foldl_map]
  simp only [Nat.add_sub_cancel]
  exact foldl_decDigits n

/-- C9 counterexample: at payload length `10^8` the header `f"{n:8d}"` is 9
bytes, not 8, and a receiver that reads only 8 header bytes parses
`10^7` instead of `10^8`: the 8-byte right-justified header only
round-trips below `10^8`. -/
theorem c9_counterexample :
    (headerBytes (10 ^ 8)).length = 9 ∧
    (headerBytes (10 ^ 8)).length ≠ 8 ∧
    recvLen (headerBytes (10 ^ 8) ++ []) = 10 ^ 7 ∧
    (10 ^ 7 : ℕ) ≠ 10 ^ 8 := by
  have hpow : (10 : ℕ) ^ 8 = 100000000 := by norm_num
  have hdig : Nat.digits 10 (10 ^ 8) = [0, 0, 0, 0, 0, 0, 0, 0, 1] := by
    rw [hpow]
    simp [Nat.digits_def']
  have hdec : decDigits (10 ^ 8) = [1, 0, 0, 0, 0, 0, 0, 0, 0] := by
    unfold decDigits
    rw [if_neg (by norm_num), hdig]
    rfl
  have hhdr : headerBytes (10 ^ 8) = [49, 48, 48, 48, 48, 48, 48, 48, 48] := by
    unfold headerBytes digitBytes
    rw [hdec]
    rfl
  refine ⟨by rw [hhdr]; rfl, by rw [hhdr]; decide, ?_, by norm_num⟩
  rw [hhdr]
  decide

/-- C9 (amended): for every payload of byte length below `10^8`, the length
header is exactly 8 ASCII bytes — spaces then decimal digits,
right-justified — and a receiver that reads the 8-byte header and parses it
recovers exactly the payload length, whatever the payload bytes are.
(For lengths of 9 or more digits the header silently grows beyond 8 bytes
and the round trip fails.) -/
theorem c9_amended_framing (n : ℕ) (payload : List ℕ) (h : n < 10 ^ 8) :
    (headerBytes n).length = 8 ∧
    (∀ b ∈ headerBytes n, b = 32 ∨ (48 ≤ b ∧ b ≤ 57)) ∧
    recvLen (headerBytes n ++ payload) = n := by
  refine ⟨headerBytes_length_of_lt n h, ?_, recvLen_headerBytes n payload h⟩
  intro b hb
  unfold headerBytes at hb
  rcases List.mem_append.1 hb with hb | hb
  · exact Or.inl (List.eq_of_mem_replicate hb)
  · exact Or.inr (digitBytes_ge n b hb)

/-- C9 witness: the amended framing instantiated at length 123 with a
3-byte payload. -/
theorem c9_witness :
    (123 < 10 ^ 8) ∧
    ((headerBytes 123).length = 8 ∧
      (∀ b ∈ headerBytes 123, b = 32 ∨ (48 ≤ b ∧ b ≤ 57)) ∧
      recvLen (headerBytes 123 ++ [1, 2, 3]) = 123) :=
  ⟨by norm_num, c9_amended_framing 123 [1, 2, 3] (by norm_num)⟩

/- ## Fold characterizations for min/max over rationals -/

theorem foldl_min_le (q : ℚ) (l : List ℚ) :
    l.foldl min q ≤ q ∧ ∀ x ∈ l, l.foldl min q ≤ x := by
  induction l generalizing q with
  | nil => exact ⟨le_rfl, by simp⟩
  | cons x xs ih =>
    obtain ⟨h1, h2⟩ := ih (min q x)
    refine ⟨le_trans h1 (min_le_left q x), ?_⟩
    intro y hy
    rcases List.mem_cons.1 hy with rfl | hy
    · exact le_trans h1 (min_le_right q y)
    · exact h2 y hy

theorem foldl_min_mem (q : ℚ) (l : List ℚ) : l.foldl min q ∈ q :: l := by
  induction l generalizing q with
  | nil => simp
  | cons x xs ih =>
    have := ih (min q x)
    rcases List.mem_cons.1 this with h | h
    · rw [List.foldl_cons, h]
      rcases min_choice q x with h1 | h1 <;> rw [h1] <;> simp
    · rw [List.foldl_cons]
      exact List.mem_cons_of_mem q (List.mem_cons_of_mem x h)

theorem foldl_le_max (q : ℚ) (l : List ℚ) :
    q ≤ l.foldl max q ∧ ∀ x ∈ l, x ≤ l.foldl max q := by
  induction l generalizing q with
  | nil => exact ⟨le_rfl, by simp⟩
  | cons x xs ih =>
    obtain ⟨h1, h2⟩ := ih (max q x)
    refine ⟨le_trans (le_max_left q x) h1, ?_⟩
    intro y hy
    rcases List.mem_cons.1 hy with rfl | hy
    · exact le_trans (le_max_right q y) h1
    · exact h2 y hy

theorem foldl_max_mem (q : ℚ) (l : List ℚ) : l.foldl max q ∈ q :: l := by
  induction l generalizing q with
  | nil => simp
  | cons x xs ih =>
    have := ih (max q x)
    rcases List.mem_cons.1 this with h | h
    · rw [List.foldl_cons, h]
      rcases max_choice q x with h1 | h1 <;> rw [h1] <;> simp
    · rw [List.foldl_cons]
      exact List.mem_cons_of_mem q (List.mem_cons_of_mem x h)

theorem foldl_qf_min (a : ℚ) (l : List ℚ) :
    l.foldl (fun m q => min m (qf q)) (qf a) = qf (l.foldl min a) := by
  induction l generalizing a with
  | nil => rfl
  | cons x xs ih => simp [ih]

theorem foldl_qf_max (a : ℚ) (l : List ℚ) :
    l.foldl (fun M q => max M (qf q)) (qf a) = qf (l.foldl max a) := by
  induction l generalizing a with
  | nil => rfl
  | cons x xs ih => simp [ih]

/-- Folding `min` into the `float('inf')` seed over a nonempty list of
finite values yields the least of them. -/
theorem foldl_min_from_pInf (l : List ℚ) (h : l ≠ []) :
    ∃ m ∈ l, l.foldl (fun m q => min m (qf q)) pInf = qf m ∧ ∀ x ∈ l, m ≤ x := by
  obtain ⟨x, xs, rfl⟩ := List.exists_cons_of_ne_nil h
  refine ⟨xs.foldl min x, ?_, ?_, ?_⟩
  · exact foldl_min_mem x xs
  · rw [List.foldl_cons, min_pInf_left, foldl_qf_min]
  · intro y hy
    obtain ⟨h1, h2⟩ := foldl_min_le x xs
    rcases List.mem_cons.1 hy with rfl | hy
    · exact h1
    · exact h2 y hy

/-- Folding `max` into the `float('-inf')` seed over a nonempty list of
finite values yields the greatest of them. -/
theorem foldl_max_from_nInf (l : List ℚ) (h : l ≠ []) :
    ∃ M ∈ l, l.foldl (fun m q => max m (qf q)) nInf = qf M ∧ ∀ x ∈ l, x ≤ M := by
  obtain ⟨x, xs, rfl⟩ := List.exists_cons_of_ne_nil h
  refine ⟨xs.foldl max x, ?_, ?_, ?_⟩
  · exact foldl_max_mem x xs
  · rw [List.foldl_cons, max_nInf_left, foldl_qf_max]
  · intro y hy
    obtain ⟨h1, h2⟩ := foldl_le_max x xs
    rcases List.mem_cons.1 hy with rfl | hy
    · exact h1
    · exact h2 y hy

/- ## Per-year analysis of the driver merge -/

theorem parseYKey_eq_some (e : YKey × RStats) (z : ℤ) :
    parseYKey e = some z ↔ e.1 = .num z := by
  obtain ⟨k, st⟩ := e
  cases k <;> simp [parseYKey]

/-- The entries of all responses, in processing order, that are keyed at a
given year by an integer-parsable key. -/
def yearRel (results : List Response) (year : ℤ) : List (YKey × RStats) :=
  results.flatten.filter (fun e => parseYKey e = some year)

theorem mergeFold_eq (results : List Response) :
    mergeFold results = foldEntries parseYKey gMerge [] results.flatten := by
  unfold mergeFold foldEntries
  rw [List.foldl_flatten]
  congr 1
  funext merged result
  cases result with
  | nil => rfl
  | cons e es => rfl

/-- What `merged` stores at a year is the fold of `gMerge` over exactly
that year's entries. -/
theorem alookup_mergeFold (results : List Response) (year : ℤ) :
    alookup year (mergeFold results) =
      (yearRel results year).foldl (fun a e => some (gMerge a e)) none := by
  rw [mergeFold_eq, alookup_foldEntries, foldl_if_filter]
  rfl

theorem nodup_keys_mergeFold (results : List Response) :
    ((mergeFold results).map Prod.fst).Nodup := by
  rw [mergeFold_eq]
  exact nodup_keys_foldEntries _ _ _ (by simp)

theorem mem_keys_filterMap {β γ : Type} (f : β → Option γ) (m : List (ℤ × β))
    (k : ℤ) (h : k ∈ (m.filterMap
      (fun p => (f p.2).map (fun v => (p.1, v)))).map Prod.fst) :
    k ∈ m.map Prod.fst := by
  simp only [List.mem_map, List.mem_filterMap] at h ⊢
  obtain ⟨q, ⟨p, hp, hq⟩, hk⟩ := h
  refine ⟨p, hp, ?_⟩
  cases hfv : f p.2 with
  | none =>
    rw [hfv] at hq
    exact absurd hq (by simp)
  | some w =>
    rw [hfv] at hq
    have hqw : (p.1, w) = q := by simpa using hq
    rw [← hqw] at hk
    exact hk

/-- Lookup in a key-preserving `filterMap` of a dict with distinct keys. -/
theorem alookup_filterMap_keydep {β γ : Type} (k : ℤ) (f : β → Option γ) :
    ∀ m : List (ℤ × β), (m.map Prod.fst).Nodup →
      alookup k (m.filterMap (fun p => (f p.2).map (fun v => (p.1, v)))) =
        (alookup k m).bind f := by
  intro m
  induction m with
  | nil => simp
  | cons hd tl ih =>
    obtain ⟨k₀, v₀⟩ := hd
    intro hnd
    have hnd' : (tl.map Prod.fst).Nodup := (List.nodup_cons.1 hnd).2
    have hk₀ : k₀ ∉ tl.map Prod.fst := (List.nodup_cons.1 hnd).1
    cases hf : f v₀ with
    | none =>
      have hstep : ((k₀, v₀) :: tl).filterMap
          (fun p => (f p.2).map (fun v => (p.1, v))) =
            tl.filterMap (fun p => (f p.2).map (fun v => (p.1, v))) := by
        rw [List.filterMap_cons]
        simp [hf]
      rw [hstep, alookup_cons]
      by_cases hk : k₀ = k
      · rw [if_pos hk]
        have hkk : k ∉ tl.map Prod.fst := by rw [← hk]; exact hk₀
        rw [alookup_eq_none_of_not_mem
          (fun hmem => hkk (mem_keys_filterMap f tl k hmem))]
        simp [hf]
      · rw [if_neg hk]
        exact ih hnd'
    | some w =>
      have hstep : ((k₀, v₀) :: tl).filterMap
          (fun p => (f p.2).map (fun v => (p.1, v))) =
            (k₀, w) :: tl.filterMap (fun p => (f p.2).map (fun v => (p.1, v))) := by
        rw [List.filterMap_cons]
        simp [hf]
      rw [hstep, alookup_cons, alookup_cons]
      by_cases hk : k₀ = k
      · rw [if_pos hk, if_pos hk]
        simp [hf]
      · rw [if_neg hk, if_neg hk]
        exact ih hnd'
/-- The final pass of the merge in key-preserving `filterMap` form. -/
theorem merge_results_eq (results : List Response) :
    merge_results results = (mergeFold results).filterMap
      (fun p => (if 0 < p.2.count then
          some (⟨p.2.min, p.2.max, pyRound (p.2.sum / (p.2.count : ℚ))⟩ : FStats)
        else none).map (fun v => (p.1, v))) := by
  unfold merge_results
  congr 1
  funext p
  by_cases h : 0 < p.2.count <;> simp [h]

/-- What the merge result stores at a year, in terms of the accumulator. -/
theorem alookup_merge_results (results : List Response) (year : ℤ) :
    alookup year (merge_results results) =
      (alookup year (mergeFold results)).bind
        (fun acc => if 0 < acc.count then
          some (⟨acc.min, acc.max, pyRound (acc.sum / (acc.count : ℚ))⟩ : FStats)
        else none) := by
  rw [merge_results_eq]
  exact alookup_filterMap_keydep year
    (fun acc => if 0 < acc.count then
      some (⟨acc.min, acc.max, pyRound (acc.sum / (acc.count : ℚ))⟩ : FStats)
    else none)
    (mergeFold results) (nodup_keys_mergeFold results)

/-- A response entry whose stats dict has all of the `'min'`, `'max'` and
`'avg'` fields. -/
def fullStats (st : RStats) : Prop :=
  st.min.isSome ∧ st.max.isSome ∧ st.avg.isSome

instance (st : RStats) : Decidable (fullStats st) := by
  unfold fullStats
  infer_instance

/-- Folding one entry bumps the accumulator count exactly when the entry
has all three stats fields. -/
theorem gMerge_count (a : Option MAcc) (k : YKey) (st : RStats) :
    (gMerge a (k, st)).count =
      (a.getD ⟨pInf, nInf, 0, 0⟩).count + (if fullStats st then 1 else 0) := by
  obtain ⟨mn, mx, av⟩ := st
  cases mn <;> cases mx <;> cases av <;>
    simp [gMerge, fullStats]

/-- The count stored for a year equals the number of its complete entries. -/
theorem chain_count (rel : List (YKey × RStats)) :
    ∀ (a : Option MAcc) (acc : MAcc),
      rel.foldl (fun a e => some (gMerge a e)) a = some acc →
      acc.count = (a.elim 0 MAcc.count) + rel.countP (fun e => fullStats e.2) := by
  induction rel with
  | nil =>
    intro a acc h
    simp only [List.foldl_nil] at h
    subst h
    simp
  | cons e rest ih =>
    intro a acc h
    rw [List.foldl_cons] at h
    have := ih (some (gMerge a e)) acc h
    rw [this, List.countP_cons]
    simp only [Option.elim]
    obtain ⟨ke, ste⟩ := e
    rw [gMerge_count a ke ste]
    cases a with
    | none => simp [decide_eq_true_eq]; omega
    | some a0 => simp [decide_eq_true_eq]; omega

/-- Folding only complete entries from a concrete accumulator: `min`/`max`
fold pointwise, `sum` accumulates the `avg` fields, `count` counts the
entries. -/
theorem chain_full (rel : List (YKey × RStats)) :
    ∀ a : MAcc, (∀ e ∈ rel, fullStats e.2) →
      rel.foldl (fun a e => some (gMerge a e)) (some a) =
        some ⟨(rel.filterMap (fun e => e.2.min)).foldl (fun m q => min m (qf q)) a.min,
              (rel.filterMap (fun e => e.2.max)).foldl (fun M q => max M (qf q)) a.max,
              a.sum + (rel.filterMap (fun e => e.2.avg)).sum,
              a.count + rel.length⟩ := by
  induction rel with
  | nil =>
    intro a _
    simp
  | cons e rest ih =>
    intro a hfull
    obtain ⟨hmnS, hmxS, havS⟩ := hfull e (List.mem_cons_self e rest)
    obtain ⟨mn, hmne⟩ := Option.isSome_iff_exists.1 hmnS
    obtain ⟨mx, hmxe⟩ := Option.isSome_iff_exists.1 hmxS
    obtain ⟨av, havee⟩ := Option.isSome_iff_exists.1 havS
    have hg : gMerge (some a) e =
        ⟨min a.min (qf mn), max a.max (qf mx), a.sum + av, a.count + 1⟩ := by
      simp [gMerge, hmne, hmxe, havee]
    rw [List.foldl_cons, hg,
      ih _ (fun e he => hfull e (List.mem_cons_of_mem _ he))]
    simp only [List.filterMap_cons, hmne, hmxe, havee, List.foldl_cons,
      List.sum_cons, List.length_cons]
    rw [add_assoc a.sum av, add_assoc a.count 1 rest.length,
      add_comm 1 rest.length]

/-- Folding a nonempty run of complete entries from the `defaultdict` seed. -/
theorem chain_full_none (rel : List (YKey × RStats)) (hne : rel ≠ [])
    (hfull : ∀ e ∈ rel, fullStats e.2) :
    rel.foldl (fun a e => some (gMerge a e)) none =
      some ⟨(rel.filterMap (fun e => e.2.min)).foldl (fun m q => min m (qf q)) pInf,
            (rel.filterMap (fun e => e.2.max)).foldl (fun M q => max M (qf q)) nInf,
            (rel.filterMap (fun e => e.2.avg)).sum,
            rel.length⟩ := by
  obtain ⟨e, rest, rfl⟩ := List.exists_cons_of_ne_nil hne
  obtain ⟨hmnS, hmxS, havS⟩ := hfull e (List.mem_cons_self e rest)
  obtain ⟨mn, hmne⟩ := Option.isSome_iff_exists.1 hmnS
  obtain ⟨mx, hmxe⟩ := Option.isSome_iff_exists.1 hmxS
  obtain ⟨av, havee⟩ := Option.isSome_iff_exists.1 havS
  have hg : gMerge none e = ⟨qf mn, qf mx, av, 1⟩ := by
    simp [gMerge, hmne, hmxe, havee]
  rw [List.foldl_cons, hg,
    chain_full rest _ (fun e he => hfull e (List.mem_cons_of_mem _ he))]
  simp only [List.filterMap_cons, hmne, hmxe, havee, List.foldl_cons,
    List.sum_cons, List.length_cons, min_pInf_left, max_nInf_left]
  rw [add_comm 1 rest.length]

/- ## Per-year analysis of the engine reducer -/

theorem alookup_reducerFold (md : List (ℤ × MappedVal)) (year : ℤ) :
    alookup year (reducerFold md) =
      (md.filter (fun e => e.1 = year)).foldl (fun a e => some (gRed a e)) none := by
  unfold reducerFold
  rw [alookup_foldEntries, foldl_if_filter]
  have hfa : md.filter (fun e => (some e.1 : Option ℤ) = some year) =
      md.filter (fun e => e.1 = year) := by
    apply List.filter_congr
    intro e _
    simp
  show (md.filter (fun e => (some e.1 : Option ℤ) = some year)).foldl
      (fun a e => some (gRed a e)) none = _
  rw [hfa]

theorem nodup_keys_reducerFold (md : List (ℤ × MappedVal)) :
    ((reducerFold md).map Prod.fst).Nodup := by
  unfold reducerFold
  exact nodup_keys_foldEntries _ _ _ (by simp)

theorem gRed_chain (rel : List (ℤ × MappedVal)) :
    ∀ a : RAcc,
      rel.foldl (fun a e => some (gRed a e)) (some a) =
        some ⟨(rel.map (fun e => e.2.min)).foldl (fun m q => min m (qf q)) a.min,
              (rel.map (fun e => e.2.max)).foldl (fun M q => max M (qf q)) a.max,
              a.sum + (rel.map (fun e => e.2.sum)).sum,
              a.count + (rel.map (fun e => e.2.count)).sum⟩ := by
  induction rel with
  | nil =>
    intro a
    simp
  | cons e rest ih =>
    intro a
    have hg : gRed (some a) e =
        ⟨min a.min (qf e.2.min), max a.max (qf e.2.max),
         a.sum + e.2.sum, a.count + e.2.count⟩ := by
      simp [gRed]
    rw [List.foldl_cons, hg, ih]
    simp only [List.map_cons, List.foldl_cons, List.sum_cons]
    rw [add_assoc a.sum, add_assoc a.count]

theorem gRed_chain_none (rel : List (ℤ × MappedVal)) (hne : rel ≠ []) :
    rel.foldl (fun a e => some (gRed a e)) none =
      some ⟨(rel.map (fun e => e.2.min)).foldl (fun m q => min m (qf q)) pInf,
            (rel.map (fun e => e.2.max)).foldl (fun M q => max M (qf q)) nInf,
            (rel.map (fun e => e.2.sum)).sum,
            (rel.map (fun e => e.2.count)).sum⟩ := by
  obtain ⟨e, rest, rfl⟩ := List.exists_cons_of_ne_nil hne
  have hg : gRed none e = ⟨qf e.2.min, qf e.2.max, e.2.sum, e.2.count⟩ := by
    simp [gRed]
  rw [List.foldl_cons, hg, gRed_chain rest _]
  simp only [List.map_cons, List.foldl_cons, List.sum_cons,
    min_pInf_left, max_nInf_left]

/-- The merge accumulator invariant: as long as every entry that carries
both a `min` and a `max` field has `min ≤ max`, any accumulator that has
absorbed at least one complete entry satisfies `min ≤ max` — partial
entries (missing fields) can only lower `min` or raise `max`. -/
theorem chain_min_le_max (rel : List (YKey × RStats))
    (h : ∀ e ∈ rel, ∀ mn mx, e.2.min = some mn → e.2.max = some mx → mn ≤ mx) :
    ∀ a : Option MAcc,
      (∀ acc0, a = some acc0 → 1 ≤ acc0.count → acc0.min ≤ acc0.max) →
      ∀ acc, rel.foldl (fun a e => some (gMerge a e)) a = some acc →
        1 ≤ acc.count → acc.min ≤ acc.max := by
  induction rel with
  | nil =>
    intro a ha acc heq
    simp only [List.foldl_nil] at heq
    exact ha acc heq
  | cons e rest ih =>
    intro a ha acc heq
    rw [List.foldl_cons] at heq
    refine ih (fun e' he' => h e' (List.mem_cons_of_mem _ he'))
      (some (gMerge a e)) ?_ acc heq
    intro acc0 hacc0 hcount
    have hacc0e : acc0 = gMerge a e := (Option.some.inj hacc0).symm
    subst hacc0e
    have hP1 : 1 ≤ (a.getD ⟨pInf, nInf, 0, 0⟩).count →
        (a.getD ⟨pInf, nInf, 0, 0⟩).min ≤ (a.getD ⟨pInf, nInf, 0, 0⟩).max := by
      cases a with
      | none =>
        intro h0
        simp at h0
      | some a0 =>
        intro h0
        exact ha a0 rfl (by simpa using h0)
    rcases hm : e.2.min with _ | mn
    · have hge : gMerge a e = a.getD ⟨pInf, nInf, 0, 0⟩ := by
        simp [gMerge, hm]
      rw [hge] at hcount ⊢
      exact hP1 hcount
    · rcases hx : e.2.max with _ | mx
      · have hge : gMerge a e =
            { a.getD ⟨pInf, nInf, 0, 0⟩ with
              min := min (a.getD ⟨pInf, nInf, 0, 0⟩).min (qf mn) } := by
          simp [gMerge, hm, hx]
        rw [hge] at hcount ⊢
        simp only at hcount ⊢
        exact le_trans (min_le_left _ _) (hP1 hcount)
      · have hmnmx : mn ≤ mx := h e (List.mem_cons_self e rest) mn mx hm hx
        rcases hv : e.2.avg with _ | av
        · have hge : gMerge a e =
              { a.getD ⟨pInf, nInf, 0, 0⟩ with
                min := min (a.getD ⟨pInf, nInf, 0, 0⟩).min (qf mn),
                max := max (a.getD ⟨pInf, nInf, 0, 0⟩).max (qf mx) } := by
            simp [gMerge, hm, hx, hv]
          rw [hge] at hcount ⊢
          simp only at hcount ⊢
          exact le_trans (min_le_left _ _)
            (le_trans (hP1 hcount) (le_max_left _ _))
        · have hge : gMerge a e =
              ⟨min (a.getD ⟨pInf, nInf, 0, 0⟩).min (qf mn),
               max (a.getD ⟨pInf, nInf, 0, 0⟩).max (qf mx),
               (a.getD ⟨pInf, nInf, 0, 0⟩).sum + av,
               (a.getD ⟨pInf, nInf, 0, 0⟩).count + 1⟩ := by
            simp [gMerge, hm, hx, hv]
          rw [hge]
          exact le_trans (min_le_right _ _)
            (le_trans (qf_le_qf.2 hmnmx) (le_max_right _ _))

/-- A response carries an entry for the given year. -/
def containsYear (year : ℤ) (r : Response) : Prop :=
  ∃ e ∈ r, e.1 = YKey.num year

instance (year : ℤ) (r : Response) : Decidable (containsYear year r) := by
  unfold containsYear
  infer_instance

theorem filter_year_length (year : ℤ) :
    ∀ r : Response, (r.map Prod.fst).Nodup →
      (r.filter (fun e => parseYKey e = some year)).length =
        if containsYear year r then 1 else 0 := by
  intro r
  induction r with
  | nil =>
    intro _
    simp [containsYear]
  | cons e rest ih =>
    intro hnd
    have hnd' : (rest.map Prod.fst).Nodup := (List.nodup_cons.1 hnd).2
    have hk : e.1 ∉ rest.map Prod.fst := (List.nodup_cons.1 hnd).1
    by_cases he : e.1 = YKey.num year
    · have hpe : parseYKey e = some year := (parseYKey_eq_some e year).2 he
      have hrest : rest.filter (fun e => parseYKey e = some year) = [] := by
        rw [List.filter_eq_nil_iff]
        intro e' he'
        simp only [decide_eq_true_eq]
        intro hpe'
        have he' : e'.1 = YKey.num year := (parseYKey_eq_some e' year).1 hpe'
        exact hk (List.mem_map.2 ⟨e', ‹e' ∈ rest›, he'.trans he.symm⟩)
      rw [List.filter_cons, if_pos (by simpa using hpe), hrest,
        if_pos ⟨e, List.mem_cons_self e rest, he⟩]
      rfl
    · have hpe : ¬ parseYKey e = some year :=
        fun hp => he ((parseYKey_eq_some e year).1 hp)
      have hiff : containsYear year (e :: rest) ↔ containsYear year rest := by
        unfold containsYear
        constructor
        · rintro ⟨e', he', hke⟩
          rcases List.mem_cons.1 he' with rfl | he'
          · exact absurd hke he
          · exact ⟨e', he', hke⟩
        · rintro ⟨e', he', hke⟩
          exact ⟨e', List.mem_cons_of_mem _ he', hke⟩
      rw [List.filter_cons, if_neg (by simpa using hpe), ih hnd', if_congr hiff rfl rfl]

theorem yearRel_cons (r : Response) (rest : List Response) (year : ℤ) :
    yearRel (r :: rest) year =
      r.filter (fun e => parseYKey e = some year) ++ yearRel rest year := by
  unfold yearRel
  rw [List.flatten_cons, List.filter_append]

/-- With distinct keys inside each response, the number of entries for a
year across all responses is the number of responses containing it. -/
theorem yearRel_length (results : List Response) (year : ℤ)
    (hnd : ∀ r ∈ results, (r.map Prod.fst).Nodup) :
    (yearRel results year).length =
      results.countP (fun r => containsYear year r) := by
  induction results with
  | nil => rfl
  | cons r rest ih =>
    rw [yearRel_cons, List.length_append,
      filter_year_length year r (hnd r (List.mem_cons_self r rest)),
      ih (fun r' hr' => hnd r' (List.mem_cons_of_mem _ hr')), List.countP_cons]
    by_cases hc : containsYear year r
    · simp [hc]
      omega
    · simp [hc]

theorem alookup_mergeFold_isSome (results : List Response) (year : ℤ) :
    (alookup year (mergeFold results)).isSome ↔ yearRel results year ≠ [] := by
  rw [alookup_mergeFold, foldl_some_isSome]
  simp

/-- A year appears in the merged output exactly when some response has an
entry for it whose key parses as an integer and which carries all of
`min`, `max` and `avg`. -/
theorem mem_keys_merge_results (results : List Response) (year : ℤ) :
    year ∈ (merge_results results).map Prod.fst ↔
      ∃ r ∈ results, ∃ e ∈ r, e.1 = YKey.num year ∧
        e.2.min.isSome ∧ e.2.max.isSome ∧ e.2.avg.isSome := by
  rw [← alookup_isSome_iff_mem, alookup_merge_results]
  constructor
  · intro hs
    rcases hacc : alookup year (mergeFold results) with _ | acc
    · rw [hacc] at hs
      simp at hs
    · rw [hacc] at hs
      by_cases hcnt : 0 < acc.count
      · have hchain := alookup_mergeFold results year
        rw [hacc] at hchain
        have hcountP := chain_count (yearRel results year) none acc hchain.symm
        simp only [Option.elim, Nat.zero_add] at hcountP
        rw [hcountP] at hcnt
        have hex : ∃ e ∈ yearRel results year, fullStats e.2 := by
          obtain ⟨e, hmem, hpe⟩ := List.countP_pos_iff.1 hcnt
          exact ⟨e, hmem, by simpa using hpe⟩
        obtain ⟨e, herel, hefull⟩ := hex
        obtain ⟨hefl, hekey⟩ := List.mem_filter.1 herel
        obtain ⟨r, hrmem, hermem⟩ := List.mem_flatten.1 hefl
        obtain ⟨h1, h2, h3⟩ := hefull
        exact ⟨r, hrmem, e, hermem,
          (parseYKey_eq_some e year).1 (by simpa using hekey), h1, h2, h3⟩
      · rw [Option.some_bind, if_neg hcnt] at hs
        simp at hs
  · rintro ⟨r, hr, e, he, hkey, hfmn, hfmx, hfav⟩
    have herel : e ∈ yearRel results year :=
      List.mem_filter.2 ⟨List.mem_flatten.2 ⟨r, hr, he⟩,
        by simp [(parseYKey_eq_some e year).2 hkey]⟩
    have hne : yearRel results year ≠ [] := List.ne_nil_of_mem herel
    have hsome := (alookup_mergeFold_isSome results year).2 hne
    rcases hacc : alookup year (mergeFold results) with _ | acc
    · rw [hacc] at hsome
      simp at hsome
    · have hchain := alookup_mergeFold results year
      rw [hacc] at hchain
      have hcountP := chain_count (yearRel results year) none acc hchain.symm
      have hpos : 0 < acc.count := by
        rw [hcountP]
        simp only [Option.elim, Nat.zero_add]
        have hcp : 0 < (yearRel results year).countP (fun e => fullStats e.2) :=
          List.countP_pos_iff.2 ⟨e, herel, by simp [fullStats, hfmn, hfmx, hfav]⟩
        omega
      rw [Option.some_bind, if_pos hpos]
      rfl

theorem alookup_reducer (md : List (ℤ × MappedVal)) (year : ℤ) :
    alookup year (reducer md) = (alookup year (reducerFold md)).map
      (fun acc => (⟨acc.min, acc.max,
        pyRound (acc.sum / (acc.count : ℚ))⟩ : YStats)) := by
  unfold reducer
  exact alookup_map_value year
    (fun acc => (⟨acc.min, acc.max,
      pyRound (acc.sum / (acc.count : ℚ))⟩ : YStats)) (reducerFold md)

theorem mapper_entry_shape (data : List Record) :
    ∀ e ∈ mapper data, e.2.min = e.2.max ∧ e.2.count = 1 := by
  intro e he
  obtain ⟨r, _, rfl⟩ := List.mem_map.1 he
  exact ⟨rfl, rfl⟩

theorem sum_ones {α : Type} (l : List α) :
    (l.map (fun _ => (1 : ℕ))).sum = l.length := by
  induction l with
  | nil => rfl
  | cons x xs ih =>
    simp [ih]
    omega

/-- C6: at the engine reduce stage every produced year satisfies
`min ≤ max` and its accumulator count is at least 1; at the driver merge
stage, for every input whose entries satisfy `min ≤ max` where both fields
are present, every merged year satisfies `min ≤ max`, and every year in the
merged output has accumulator count at least 1. -/
theorem c6_stage_invariants :
    (∀ (data : List Record) (year : ℤ) (st : YStats),
        alookup year (reducer (mapper data)) = some st → st.min ≤ st.max) ∧
    (∀ (data : List Record) (year : ℤ) (acc : RAcc),
        alookup year (reducerFold (mapper data)) = some acc → 1 ≤ acc.count) ∧
    (∀ results : List Response,
        (∀ r ∈ results, ∀ e ∈ r, ∀ mn mx,
          e.2.min = some mn → e.2.max = some mx → mn ≤ mx) →
        ∀ (year : ℤ) (st : FStats),
          alookup year (merge_results results) = some st → st.min ≤ st.max) ∧
    (∀ (results : List Response) (year : ℤ) (st : FStats),
        alookup year (merge_results results) = some st →
        ∃ acc, alookup year (mergeFold results) = some acc ∧ 1 ≤ acc.count) := by
  have hred : ∀ (data : List Record) (year : ℤ) (acc : RAcc),
      alookup year (reducerFold (mapper data)) = some acc →
      acc.min ≤ acc.max ∧ 1 ≤ acc.count := by
    intro data year acc hacc
    have hch := alookup_reducerFold (mapper data) year
    rw [hacc] at hch
    set rel := (mapper data).filter (fun e => e.1 = year) with hrel
    have hne : rel ≠ [] := by
      intro h0
      rw [h0] at hch
      simp at hch
    rw [gRed_chain_none rel hne] at hch
    have hacc2 := Option.some.inj hch
    have hshape : ∀ e ∈ rel, e.2.min = e.2.max ∧ e.2.count = 1 := by
      intro e he
      exact mapper_entry_shape data e (List.mem_filter.1 he).1
    have hmm : rel.map (fun e => e.2.max) = rel.map (fun e => e.2.min) := by
      apply List.map_congr_left
      intro e he
      exact (hshape e he).1.symm
    have hlne : rel.map (fun e => e.2.min) ≠ [] := by
      simpa using hne
    obtain ⟨m, hmmem, hmeq, hmle⟩ :=
      foldl_min_from_pInf (rel.map (fun e => e.2.min)) hlne
    obtain ⟨M, hMmem, hMeq, hMle⟩ :=
      foldl_max_from_nInf (rel.map (fun e => e.2.max)) (by simpa using hne)
    constructor
    · rw [hacc2]
      simp only
      rw [hmeq, hMeq]
      rw [hmm] at hMle
      exact qf_le_qf.2 (hMle m hmmem)
    · rw [hacc2]
      simp only
      have hcnt : rel.map (fun e => e.2.count) = rel.map (fun _ => 1) := by
        apply List.map_congr_left
        intro e he
        exact (hshape e he).2
      rw [hcnt, sum_ones]
      exact List.length_pos.2 hne
  refine ⟨?_, ?_, ?_, ?_⟩
  · intro data year st h
    rw [alookup_reducer] at h
    rcases hacc : alookup year (reducerFold (mapper data)) with _ | acc
    · rw [hacc] at h
      simp at h
    · rw [hacc] at h
      have hst : (⟨acc.min, acc.max,
          pyRound (acc.sum / (acc.count : ℚ))⟩ : YStats) = st := Option.some.inj h
      rw [← hst]
      exact (hred data year acc hacc).1
  · intro data year acc hacc
    exact (hred data year acc hacc).2
  · intro results hpair year st h
    rw [alookup_merge_results] at h
    rcases hacc : alookup year (mergeFold results) with _ | acc
    · rw [hacc] at h
      simp at h
    · rw [hacc, Option.some_bind] at h
      by_cases hcnt : 0 < acc.count
      · rw [if_pos hcnt] at h
        have hst : (⟨acc.min, acc.max,
            pyRound (acc.sum / (acc.count : ℚ))⟩ : FStats) = st := Option.some.inj h
        have hch := alookup_mergeFold results year
        rw [hacc] at hch
        have hmin : acc.min ≤ acc.max := by
          refine chain_min_le_max (yearRel results year) ?_ none ?_ acc hch.symm hcnt
          · intro e he mn mx hmn hmx
            obtain ⟨hefl, _⟩ := List.mem_filter.1 he
            obtain ⟨r, hrmem, hermem⟩ := List.mem_flatten.1 hefl
            exact hpair r hrmem e hermem mn mx hmn hmx
          · intro acc0 habs
            exact absurd habs (by simp)
        rw [← hst]
        exact hmin
      · rw [if_neg hcnt] at h
        simp at h
  · intro results year st h
    rw [alookup_merge_results] at h
    rcases hacc : alookup year (mergeFold results) with _ | acc
    · rw [hacc] at h
      simp at h
    · rw [hacc, Option.some_bind] at h
      by_cases hcnt : 0 < acc.count
      · exact ⟨acc, rfl, hcnt⟩
      · rw [if_neg hcnt] at h
        simp at h

/-- A key that `int()` parses. -/
def isNumKey : YKey → Bool
  | .num _ => true
  | .junk _ => false

/-- A well-formed engine result: every entry has an integer-parsable year
key and complete stats, and the response's keys are distinct (it is a
dict). -/
def WFResponse (r : Response) : Prop :=
  (∀ e ∈ r, isNumKey e.1 ∧ fullStats e.2) ∧ (r.map Prod.fst).Nodup

instance (r : Response) : Decidable (WFResponse r) := by
  unfold WFResponse
  infer_instance

/-- C1: for well-formed per-engine results, a year is merged exactly when
some response mentions it; the number of its entries equals the number of
contributing responses; and its merged stats take `min` as the least
incoming `min`, `max` as the greatest incoming `max`, and
`avg = round((sum of incoming avg values) / count)` — per-engine averages,
one vote per response, not raw scores. -/
theorem c1_merge_semantics (results : List Response)
    (hwf : ∀ r ∈ results, WFResponse r) (year : ℤ) :
    ((∃ st, alookup year (merge_results results) = some st) ↔
      yearRel results year ≠ []) ∧
    ((yearRel results year).length =
      results.countP (fun r => containsYear year r)) ∧
    (∀ st, alookup year (merge_results results) = some st →
      (∃ m ∈ (yearRel results year).filterMap (fun e => e.2.min),
        st.min = qf m ∧
          ∀ x ∈ (yearRel results year).filterMap (fun e => e.2.min), m ≤ x) ∧
      (∃ M ∈ (yearRel results year).filterMap (fun e => e.2.max),
        st.max = qf M ∧
          ∀ x ∈ (yearRel results year).filterMap (fun e => e.2.max), x ≤ M) ∧
      st.avg = pyRound (((yearRel results year).filterMap
        (fun e => e.2.avg)).sum / ((yearRel results year).length : ℚ))) := by
  have hfull : ∀ e ∈ yearRel results year, fullStats e.2 := by
    intro e he
    obtain ⟨hefl, _⟩ := List.mem_filter.1 he
    obtain ⟨r, hrmem, hermem⟩ := List.mem_flatten.1 hefl
    exact ((hwf r hrmem).1 e hermem).2
  have hchainfull : yearRel results year ≠ [] →
      alookup year (mergeFold results) =
        some ⟨((yearRel results year).filterMap
                (fun e => e.2.min)).foldl (fun m q => min m (qf q)) pInf,
              ((yearRel results year).filterMap
                (fun e => e.2.max)).foldl (fun M q => max M (qf q)) nInf,
              ((yearRel results year).filterMap (fun e => e.2.avg)).sum,
              (yearRel results year).length⟩ := by
    intro hne
    rw [alookup_mergeFold]
    exact chain_full_none (yearRel results year) hne hfull
  refine ⟨?_, ?_, ?_⟩
  · constructor
    · rintro ⟨st, hst⟩
      rw [alookup_merge_results] at hst
      rcases hacc : alookup year (mergeFold results) with _ | acc
      · rw [hacc] at hst
        simp at hst
      · exact (alookup_mergeFold_isSome results year).1 (by simp [hacc])
    · intro hne
      rw [alookup_merge_results, hchainfull hne, Option.some_bind,
        if_pos (List.length_pos.2 hne)]
      exact ⟨_, rfl⟩
  · exact yearRel_length results year (fun r hr => (hwf r hr).2)
  · intro st hst
    have hne : yearRel results year ≠ [] := by
      rcases hacc : alookup year (mergeFold results) with _ | acc
      · rw [alookup_merge_results, hacc] at hst
        simp at hst
      · exact (alookup_mergeFold_isSome results year).1 (by simp [hacc])
    rw [alookup_merge_results, hchainfull hne, Option.some_bind,
      if_pos (List.length_pos.2 hne)] at hst
    have hstv := (Option.some.inj hst).symm
    have hminsne : (yearRel results year).filterMap (fun e => e.2.min) ≠ [] := by
      obtain ⟨e, rest, heq⟩ := List.exists_cons_of_ne_nil hne
      have hemem : e ∈ yearRel results year := by
        rw [heq]
        exact List.mem_cons_self e rest
      obtain ⟨hS, _, _⟩ := hfull e hemem
      obtain ⟨mn, hmne⟩ := Option.isSome_iff_exists.1 hS
      exact List.ne_nil_of_mem (List.mem_filterMap.2 ⟨e, hemem, hmne⟩)
    have hmaxsne : (yearRel results year).filterMap (fun e => e.2.max) ≠ [] := by
      obtain ⟨e, rest, heq⟩ := List.exists_cons_of_ne_nil hne
      have hemem : e ∈ yearRel results year := by
        rw [heq]
        exact List.mem_cons_self e rest
      obtain ⟨_, hS, _⟩ := hfull e hemem
      obtain ⟨mx, hmxe⟩ := Option.isSome_iff_exists.1 hS
      exact List.ne_nil_of_mem (List.mem_filterMap.2 ⟨e, hemem, hmxe⟩)
    obtain ⟨m, hmmem, hmeq, hmle⟩ :=
      foldl_min_from_pInf _ hminsne
    obtain ⟨M, hMmem, hMeq, hMle⟩ :=
      foldl_max_from_nInf _ hmaxsne
    refine ⟨⟨m, hmmem, ?_, hmle⟩, ⟨M, hMmem, ?_, hMle⟩, ?_⟩
    · rw [hstv]
      exact hmeq
    · rw [hstv]
      exact hMeq
    · rw [hstv]

/-- The spec's merge example: two engine responses for year 2020. -/
def mergeExample : List Response :=
  [[(.num 2020, ⟨some 1, some 5, some 3⟩)],
   [(.num 2020, ⟨some 2, some 4, some 5⟩)]]

theorem mergeExample_eval :
    merge_results mergeExample = [(2020, ⟨qf 1, qf 5, 4⟩)] := by
  simp [mergeExample, merge_results, mergeFold, stepEntry, parseYKey, gMerge,
    aupsert, alookup, min_def, max_def]
  norm_num [pyRound, Int.fract]

/-- C1 witness: the spec's example — merging
`[{2020:{min:1,max:5,avg:3}}, {2020:{min:2,max:4,avg:5}}]` yields
`{2020:{min:1,max:5,avg:4}}` — together with the presence
characterization from the merge-semantics theorem. -/
theorem c1_witness :
    (∀ r ∈ mergeExample, WFResponse r) ∧
    merge_results mergeExample = [(2020, ⟨qf 1, qf 5, 4⟩)] ∧
    ((∃ st, alookup 2020 (merge_results mergeExample) = some st) ↔
      yearRel mergeExample 2020 ≠ []) :=
  ⟨by decide, mergeExample_eval,
    (c1_merge_semantics mergeExample (by decide) 2020).1⟩

theorem reducerExample_eval :
    reducer (mapper [⟨2020, 80⟩, ⟨2020, 90⟩]) = [(2020, ⟨qf 80, qf 90, 85⟩)] := by
  simp [reducer, reducerFold, mapper, foldEntries, stepEntry, gRed,
    aupsert, alookup, min_def, max_def]
  norm_num [pyRound, Int.fract]

/-- C6 witness: both stage invariants instantiated on concrete data. -/
theorem c6_witness :
    (alookup 2020 (reducer (mapper [⟨2020, 80⟩, ⟨2020, 90⟩])) =
        some ⟨qf 80, qf 90, 85⟩) ∧
    ((⟨qf 80, qf 90, 85⟩ : YStats).min ≤ (⟨qf 80, qf 90, 85⟩ : YStats).max) ∧
    (∀ r ∈ mergeExample, ∀ e ∈ r, ∀ mn mx,
      e.2.min = some mn → e.2.max = some mx → mn ≤ mx) ∧
    (alookup 2020 (merge_results mergeExample) = some ⟨qf 1, qf 5, 4⟩) ∧
    ((⟨qf 1, qf 5, 4⟩ : FStats).min ≤ (⟨qf 1, qf 5, 4⟩ : FStats).max) ∧
    (∃ acc, alookup 2020 (mergeFold mergeExample) = some acc ∧ 1 ≤ acc.count) := by
  have he1 : alookup 2020 (reducer (mapper [⟨2020, 80⟩, ⟨2020, 90⟩])) =
      some ⟨qf 80, qf 90, 85⟩ := by
    rw [reducerExample_eval]
    simp [alookup]
  have hd : ∀ r ∈ mergeExample, ∀ e ∈ r, ∀ mn mx,
      e.2.min = some mn → e.2.max = some mx → mn ≤ mx := by
    intro r hr e he mn mx hmn hmx
    simp only [mergeExample, List.mem_cons, List.not_mem_nil, or_false] at hr
    rcases hr with rfl | rfl
    · simp only [List.mem_cons, List.not_mem_nil, or_false] at he
      subst he
      injection hmn with h1
      injection hmx with h2
      rw [← h1, ← h2]
      norm_num
    · simp only [List.mem_cons, List.not_mem_nil, or_false] at he
      subst he
      injection hmn with h1
      injection hmx with h2
      rw [← h1, ← h2]
      norm_num
  have he2 : alookup 2020 (merge_results mergeExample) = some ⟨qf 1, qf 5, 4⟩ := by
    rw [mergeExample_eval]
    simp [alookup]
  exact ⟨he1, c6_stage_invariants.1 _ 2020 _ he1, hd, he2,
    c6_stage_invariants.2.2.1 mergeExample hd 2020 _ he2,
    c6_stage_invariants.2.2.2 mergeExample 2020 _ he2⟩

/-- C4: both the engine-side average and the driver-side final average use
round-half-to-even: whenever the accumulated `sum/count` is exactly halfway
between two integers, the emitted `avg` is the even neighbour. -/
theorem c4_round_half_even :
    (∀ (md : List (ℤ × MappedVal)) (year : ℤ) (acc : RAcc) (k : ℤ),
        alookup year (reducerFold md) = some acc →
        acc.sum / (acc.count : ℚ) = (k : ℚ) + 1/2 →
        ∃ st, alookup year (reducer md) = some st ∧
          Even st.avg ∧ (st.avg = k ∨ st.avg = k + 1)) ∧
    (∀ (results : List Response) (year : ℤ) (acc : MAcc) (k : ℤ),
        alookup year (mergeFold results) = some acc → 0 < acc.count →
        acc.sum / (acc.count : ℚ) = (k : ℚ) + 1/2 →
        ∃ st, alookup year (merge_results results) = some st ∧
          Even st.avg ∧ (st.avg = k ∨ st.avg = k + 1)) := by
  have hpy : ∀ k : ℤ, Even (pyRound ((k : ℚ) + 1/2)) ∧
      (pyRound ((k : ℚ) + 1/2) = k ∨ pyRound ((k : ℚ) + 1/2) = k + 1) := by
    intro k
    rw [pyRound_half_even]
    by_cases h : 2 ∣ k
    · rw [if_pos h]
      exact ⟨even_iff_two_dvd.2 h, Or.inl rfl⟩
    · rw [if_neg h]
      refine ⟨Int.even_add_one.2 (fun he => h (even_iff_two_dvd.1 he)), Or.inr rfl⟩
  constructor
  · intro md year acc k hacc hhalf
    refine ⟨⟨acc.min, acc.max, pyRound (acc.sum / (acc.count : ℚ))⟩, ?_, ?_⟩
    · rw [alookup_reducer, hacc]
      rfl
    · rw [hhalf]
      exact hpy k
  · intro results year acc k hacc hcnt hhalf
    refine ⟨⟨acc.min, acc.max, pyRound (acc.sum / (acc.count : ℚ))⟩, ?_, ?_⟩
    · rw [alookup_merge_results, hacc, Option.some_bind, if_pos hcnt]
    · rw [hhalf]
      exact hpy k

theorem reducerFoldHalf_eval :
    alookup 2020 (reducerFold (mapper [⟨2020, 4⟩, ⟨2020, 5⟩])) =
      some ⟨qf 4, qf 5, 9, 2⟩ := by
  simp [reducerFold, foldEntries, stepEntry, gRed, mapper,
    aupsert, alookup, min_def, max_def]
  norm_num

/-- C4 witness: two scores 4 and 5 give `sum/count = 4.5`, and the engine
average rounds to the even neighbour 4. -/
theorem c4_witness :
    (alookup 2020 (reducerFold (mapper [⟨2020, 4⟩, ⟨2020, 5⟩])) =
        some ⟨qf 4, qf 5, 9, 2⟩) ∧
    ((⟨qf 4, qf 5, 9, 2⟩ : RAcc).sum /
        (((⟨qf 4, qf 5, 9, 2⟩ : RAcc).count : ℕ) : ℚ) = (4 : ℚ) + 1/2) ∧
    (∃ st, alookup 2020 (reducer (mapper [⟨2020, 4⟩, ⟨2020, 5⟩])) = some st ∧
      Even st.avg ∧ (st.avg = 4 ∨ st.avg = 4 + 1)) := by
  have hhalf : (⟨qf 4, qf 5, 9, 2⟩ : RAcc).sum /
      (((⟨qf 4, qf 5, 9, 2⟩ : RAcc).count : ℕ) : ℚ) = (4 : ℚ) + 1/2 := by
    norm_num
  exact ⟨reducerFoldHalf_eval, hhalf,
    c4_round_half_even.1 _ 2020 _ 4 reducerFoldHalf_eval hhalf⟩

/-- The years of the output lines are exactly the sorted keys. -/
theorem write_output_years (results : List (ℤ × FStats)) :
    (write_output results).map (fun q => q.1) =
      List.insertionSort (· ≤ ·) (results.map Prod.fst) := by
  unfold write_output
  rw [List.map_map]
  have hcomp : ((fun q : ℤ × ℤ × ℤ × ℤ => q.1) ∘
      (fun year => match alookup year results with
        | some stats => (year, efTrunc stats.min, efTrunc stats.max, stats.avg)
        | none => (year, 0, 0, 0))) = id := by
    funext y
    simp only [Function.comp_apply, id_eq]
    cases alookup y results <;> rfl
  rw [hcomp, List.map_id]

/-- C8: for every merged result mapping with distinct years, the output has
exactly one line per year in strictly ascending year order, the set of
output years equals the set of merged years, and each line carries the
year followed by `int(min)`, `int(max)`, `int(avg)` — truncation toward
zero, not rounding — in the `year,min,max,avg` field order. -/
theorem c8_output_format (results : List (ℤ × FStats))
    (hnd : (results.map Prod.fst).Nodup) :
    ((write_output results).map (fun q => q.1)).Sorted (· < ·) ∧
    (∀ y, y ∈ (write_output results).map (fun q => q.1) ↔
      y ∈ results.map Prod.fst) ∧
    (∀ y st, alookup y results = some st →
      (y, efTrunc st.min, efTrunc st.max, st.avg) ∈ write_output results) := by
  have hperm := List.perm_insertionSort (· ≤ ·) (results.map Prod.fst)
  refine ⟨?_, ?_, ?_⟩
  · rw [write_output_years]
    exact (List.sorted_insertionSort _ _).lt_of_le (hperm.nodup_iff.2 hnd)
  · intro y
    rw [write_output_years]
    exact hperm.mem_iff
  · intro y st h
    have hy : y ∈ results.map Prod.fst :=
      (alookup_isSome_iff_mem y results).1 (by simp [h])
    have hys : y ∈ List.insertionSort (· ≤ ·) (results.map Prod.fst) :=
      hperm.mem_iff.2 hy
    unfold write_output
    refine List.mem_map.2 ⟨y, hys, ?_⟩
    rw [h]

/-- A concrete merged mapping with unsorted keys and non-integer stats. -/
def outExample : List (ℤ × FStats) :=
  [(2021, ⟨qf 3, qf 7, 5⟩), (2020, ⟨qf 1, qf 9, 5⟩)]

/-- C8 witness: the output-format theorem at a concrete two-year mapping. -/
theorem c8_witness :
    ((outExample.map Prod.fst).Nodup) ∧
    (((write_output outExample).map (fun q => q.1)).Sorted (· < ·) ∧
      (∀ y, y ∈ (write_output outExample).map (fun q => q.1) ↔
        y ∈ outExample.map Prod.fst) ∧
      (∀ y st, alookup y outExample = some st →
        (y, efTrunc st.min, efTrunc st.max, st.avg) ∈ write_output outExample)) :=
  ⟨by decide, c8_output_format outExample (by decide)⟩

/- ## Raw response values and the merge's exception behaviour

The driver feeds raw `json.loads` output into `merge_results`, so a stats
field can hold any JSON value, not only a number.  `PyVal` models a field
value: a number, or a non-numeric value (a string stands in for any
non-numeric JSON value).  Python's `min`/`max`/`+` raise `TypeError` when
mixing a float with a non-numeric value, and the merge loop catches only
`ValueError` and `KeyError` (driver.py line 100), so a `TypeError` at
line 96 escapes `merge_results`. -/

/-- A JSON value stored in a stats field: a number, or a non-numeric value
on which Python numeric operations raise `TypeError`. -/
inductive PyVal : Type
  | num (q : ℚ)
  | str (s : String)
  deriving DecidableEq

/-- A per-year stats dict with raw JSON field values. -/
structure RawStats : Type where
  min : Option PyVal
  max : Option PyVal
  avg : Option PyVal
  deriving DecidableEq

/-- One raw engine response as decoded from the wire. -/
abbrev RawResponse := List (YKey × RawStats)

/-- The exceptions the merge's entry body can raise: `int(year_str)` raises
`ValueError`, a missing stats field raises `KeyError` — both caught — and a
non-numeric field value raises `TypeError`, which is not caught. -/
inductive PyExc : Type
  | valueError
  | keyError
  | typeError
  deriving DecidableEq

/-- The body of the per-entry `try` block over raw values, with the
`except (ValueError, KeyError)` applied: those two exceptions turn into
`continue` (keeping the updates already applied to the defaultdict), while
a `TypeError` propagates out of the fold. -/
def procEntryE (m : List (ℤ × MAcc)) (e : YKey × RawStats) :
    Except PyExc (List (ℤ × MAcc)) :=
  match e.1 with
  | .junk _ => .ok m
  | .num year =>
    let acc := (alookup year m).getD ⟨pInf, nInf, 0, 0⟩
    let m := aupsert year acc m
    match e.2.min with
    | none => .ok m
    | some (.str _) => .error .typeError
    | some (.num mn) =>
      let acc := { acc with min := min acc.min (qf mn) }
      let m := aupsert year acc m
      match e.2.max with
      | none => .ok m
      | some (.str _) => .error .typeError
      | some (.num mx) =>
        let acc := { acc with max := max acc.max (qf mx) }
        let m := aupsert year acc m
        match e.2.avg with
        | none => .ok m
        | some (.str _) => .error .typeError
        | some (.num av) =>
          .ok (aupsert year
            { acc with sum := acc.sum + av, count := acc.count + 1 } m)

/-- The accumulation loop of `merge_results` over raw responses, with
exceptions propagated. -/
def mergeFoldE (results : List RawResponse) :
    Except PyExc (List (ℤ × MAcc)) :=
  results.foldlM
    (fun merged result =>
      if result = [] then pure merged
      else result.foldlM procEntryE merged)
    []

/-- `MapReduceDriver.merge_results` over raw responses: the final
count-filtering pass runs only when the accumulation loop did not raise. -/
def merge_resultsE (results : List RawResponse) :
    Except PyExc (List (ℤ × FStats)) :=
  (mergeFoldE results).map
    (fun merged => merged.filterMap
      (fun p =>
        if 0 < p.2.count then
          some (p.1, ⟨p.2.min, p.2.max, pyRound (p.2.sum / (p.2.count : ℚ))⟩)
        else none))

/-- A raw field value the numeric operations accept. -/
def isNumericVal : Option PyVal → Bool
  | some (.str _) => false
  | _ => true

/-- A raw stats dict whose present fields are all numbers. -/
def numericStats (st : RawStats) : Prop :=
  isNumericVal st.min ∧ isNumericVal st.max ∧ isNumericVal st.avg

instance (st : RawStats) : Decidable (numericStats st) := by
  unfold numericStats
  infer_instance

/-- The numeric content of a raw field value. -/
def numVal : Option PyVal → Option ℚ
  | some (.num q) => some q
  | _ => none

/-- The view of a raw stats dict as numeric stats. -/
def toRStats (st : RawStats) : RStats :=
  ⟨numVal st.min, numVal st.max, numVal st.avg⟩

/-- The view of a raw response as a numeric response. -/
def toResponse (r : RawResponse) : Response :=
  r.map (fun e => (e.1, toRStats e.2))

theorem aupsert_aupsert {β : Type} (k : ℤ) (v v' : β) (m : List (ℤ × β)) :
    aupsert k v' (aupsert k v m) = aupsert k v' m := by
  induction m with
  | nil => simp [aupsert]
  | cons hd tl ih =>
    obtain ⟨k₀, v₀⟩ := hd
    by_cases h : k₀ = k
    · simp [aupsert, h]
    · simp [aupsert, h, ih]

/-- On an entry whose present fields are numeric the raw body completes,
and its net effect is one `stepEntry` of the numeric merge. -/
theorem procEntryE_numeric (m : List (ℤ × MAcc)) (e : YKey × RawStats)
    (h : numericStats e.2) :
    procEntryE m e =
      .ok (stepEntry parseYKey gMerge m (e.1, toRStats e.2)) := by
  obtain ⟨k, st⟩ := e
  obtain ⟨mn, mx, av⟩ := st
  obtain ⟨hmn, hmx, hav⟩ := h
  cases k with
  | junk s => rfl
  | num year =>
    rcases mn with _ | v1
    · simp [procEntryE, stepEntry, parseYKey, gMerge, toRStats, numVal]
    · rcases v1 with q1 | s1
      · rcases mx with _ | v2
        · simp [procEntryE, stepEntry, parseYKey, gMerge, toRStats, numVal,
            aupsert_aupsert]
        · rcases v2 with q2 | s2
          · rcases av with _ | v3
            · simp [procEntryE, stepEntry, parseYKey, gMerge, toRStats, numVal,
                aupsert_aupsert]
            · rcases v3 with q3 | s3
              · simp [procEntryE, stepEntry, parseYKey, gMerge, toRStats,
                  numVal, aupsert_aupsert]
              · simp [isNumericVal] at hav
          · simp [isNumericVal] at hmx
      · simp [isNumericVal] at hmn

/-- On a numeric response the raw entry loop completes and agrees with the
numeric merge loop. -/
theorem foldlM_procEntryE_numeric (r : RawResponse)
    (h : ∀ e ∈ r, numericStats e.2) :
    ∀ m : List (ℤ × MAcc),
      r.foldlM procEntryE m =
        .ok ((toResponse r).foldl (stepEntry parseYKey gMerge) m) := by
  induction r with
  | nil =>
    intro m
    rfl
  | cons e rest ih =>
    intro m
    rw [List.foldlM_cons, procEntryE_numeric m e (h e (List.mem_cons_self e rest))]
    show rest.foldlM procEntryE _ = _
    rw [ih (fun e' he' => h e' (List.mem_cons_of_mem _ he'))]
    rfl

/-- On numeric responses the raw accumulation loop completes and agrees
with `mergeFold`. -/
theorem mergeFoldE_numeric (results : List RawResponse)
    (h : ∀ r ∈ results, ∀ e ∈ r, numericStats e.2) :
    mergeFoldE results = .ok (mergeFold (results.map toResponse)) := by
  unfold mergeFoldE mergeFold
  suffices hgen : ∀ m : List (ℤ × MAcc),
      results.foldlM
        (fun merged result =>
          if result = [] then pure merged
          else result.foldlM procEntryE merged) m =
        .ok ((results.map toResponse).foldl
          (fun merged result =>
            if result = [] then merged
            else result.foldl (stepEntry parseYKey gMerge) merged) m) by
    exact hgen []
  induction results with
  | nil =>
    intro m
    rfl
  | cons r rest ih =>
    intro m
    rw [List.foldlM_cons]
    have hstep : (if r = [] then (pure m : Except PyExc _)
        else r.foldlM procEntryE m) =
        .ok (if toResponse r = [] then m
          else (toResponse r).foldl (stepEntry parseYKey gMerge) m) := by
      by_cases hr : r = []
      · subst hr
        rfl
      · have hr' : toResponse r ≠ [] := by
          simpa [toResponse] using hr
        rw [if_neg hr, if_neg hr',
          foldlM_procEntryE_numeric r (h r (List.mem_cons_self r rest)) m]
    rw [hstep]
    show rest.foldlM _ _ = _
    rw [ih (fun r' hr' => h r' (List.mem_cons_of_mem _ hr'))]
    rfl

/-- On numeric responses the raw merge completes and agrees with the
numeric merge. -/
theorem merge_resultsE_numeric (results : List RawResponse)
    (h : ∀ r ∈ results, ∀ e ∈ r, numericStats e.2) :
    merge_resultsE results = .ok (merge_results (results.map toResponse)) := by
  unfold merge_resultsE
  rw [mergeFoldE_numeric results h]
  rfl

/-- C10 counterexample: on a single response whose `min` value is the
string `"x"`, `min(float('inf'), "x")` at driver.py line 96 raises a
`TypeError` that `except (ValueError, KeyError)` does not catch, so the
merge raises instead of returning a result: the claim's "never raises on
any list of response dictionaries" is false. -/
theorem c10_counterexample :
    merge_resultsE
        [[(.num 2020, ⟨some (.str "x"), some (.num 1), some (.num 1)⟩)]] =
      .error .typeError ∧
    ∀ out, merge_resultsE
        [[(.num 2020, ⟨some (.str "x"), some (.num 1), some (.num 1)⟩)]] ≠
      .ok out := by
  constructor
  · rfl
  · intro out h
    rw [show merge_resultsE
        [[(.num 2020, ⟨some (.str "x"), some (.num 1), some (.num 1)⟩)]] =
          (.error .typeError : Except PyExc (List (ℤ × FStats))) from rfl] at h
    exact Except.noConfusion h

theorem numVal_isSome (v : Option PyVal) (hv : isNumericVal v) :
    (numVal v).isSome = v.isSome := by
  rcases v with _ | (q | s)
  · rfl
  · rfl
  · simp [isNumericVal] at hv

/-- C10 (amended): the merge never raises on any list of response
dictionaries whose present stats values are numeric — entries with
non-integer-parsable year keys or with missing `min`/`max`/`avg` fields
are caught and skipped — and on such inputs a year appears in the merged
output iff at least one response contains an entry for it whose key parses
as an integer and which has all of `min`, `max` and `avg` present. (On a
non-numeric stats value the merge raises an uncaught `TypeError` instead;
see the counterexample.) -/
theorem c10_amended_merge_robust (results : List RawResponse)
    (h : ∀ r ∈ results, ∀ e ∈ r, numericStats e.2) :
    ∃ out, merge_resultsE results = .ok out ∧
      ∀ year : ℤ, year ∈ out.map Prod.fst ↔
        ∃ r ∈ results, ∃ e ∈ r, e.1 = YKey.num year ∧
          e.2.min.isSome ∧ e.2.max.isSome ∧ e.2.avg.isSome := by
  refine ⟨merge_results (results.map toResponse),
    merge_resultsE_numeric results h, ?_⟩
  intro year
  rw [mem_keys_merge_results]
  constructor
  · rintro ⟨r', hr', e', he', hkey, hfmn, hfmx, hfav⟩
    obtain ⟨r, hr, rfl⟩ := List.mem_map.1 hr'
    obtain ⟨e, he, rfl⟩ := List.mem_map.1 he'
    obtain ⟨hn1, hn2, hn3⟩ := h r hr e he
    refine ⟨r, hr, e, he, hkey, ?_, ?_, ?_⟩
    · rw [show ((e.1, toRStats e.2).2.min) = numVal e.2.min from rfl,
        numVal_isSome e.2.min hn1] at hfmn
      exact hfmn
    · rw [show ((e.1, toRStats e.2).2.max) = numVal e.2.max from rfl,
        numVal_isSome e.2.max hn2] at hfmx
      exact hfmx
    · rw [show ((e.1, toRStats e.2).2.avg) = numVal e.2.avg from rfl,
        numVal_isSome e.2.avg hn3] at hfav
      exact hfav
  · rintro ⟨r, hr, e, he, hkey, hfmn, hfmx, hfav⟩
    obtain ⟨hn1, hn2, hn3⟩ := h r hr e he
    refine ⟨toResponse r, List.mem_map_of_mem _ hr, (e.1, toRStats e.2),
      List.mem_map_of_mem _ he, hkey, ?_, ?_, ?_⟩
    · rw [show ((e.1, toRStats e.2).2.min) = numVal e.2.min from rfl,
        numVal_isSome e.2.min hn1]
      exact hfmn
    · rw [show ((e.1, toRStats e.2).2.max) = numVal e.2.max from rfl,
        numVal_isSome e.2.max hn2]
      exact hfmx
    · rw [show ((e.1, toRStats e.2).2.avg) = numVal e.2.avg from rfl,
        numVal_isSome e.2.avg hn3]
      exact hfav

/-- A raw response list with an unparsable key and a missing field, but
only numeric values. -/
def rawExample : List RawResponse :=
  [[(.junk "bad-year", ⟨some (.num 1), none, none⟩),
    (.num 2020, ⟨some (.num 1), some (.num 5), some (.num 3)⟩)]]

/-- C10 witness: the amended robustness statement at a concrete raw
response list containing an unparsable key and a partial entry. -/
theorem c10_witness :
    (∀ r ∈ rawExample, ∀ e ∈ r, numericStats e.2) ∧
    (∃ out, merge_resultsE rawExample = .ok out ∧
      ∀ year : ℤ, year ∈ out.map Prod.fst ↔
        ∃ r ∈ rawExample, ∃ e ∈ r, e.1 = YKey.num year ∧
          e.2.min.isSome ∧ e.2.max.isSome ∧ e.2.avg.isSome) :=
  ⟨by decide, c10_amended_merge_robust rawExample (by decide)⟩

end Shipd
